import Mathlib

/-!
Shallow embedding of the ZUS coffee chatbot repository: the rolling-memory
manager and semantic retrieval (src/agent/memory.py), the tool executor and
the registered calculator tool (src/graph.py), the calculator node's input
validation (src/agent/nodes/calculator.py), the text-to-SQL sanitizer and
fuzzy-match rewrite and the outlets endpoint's result handling
(src/api/start_api.py), together with theorems settling the specification's
claims about them.

Strings are modelled as `List Char` internally and `String` at the boundary.
Character-class predicates mirror Python's behaviour on the ASCII range (the
repository's data and queries are ASCII).  External oracles (the summarizing
LLM call, the embedding similarity search, the HTTP-backed tools) enter as
function parameters: the theorems quantify over them.
-/

namespace Zus

/-! ## Python string primitives -/

/-- Python whitespace for `\s` and `str.strip`, on the ASCII range. -/
def isPyWs (c : Char) : Bool :=
  c = ' ' || c = '\t' || c = '\n' || c = '\r' || c = '\x0b' || c = '\x0c'

/-- Python `\w` (word character) on the ASCII range. -/
def isWordChar (c : Char) : Bool :=
  c.isAlpha || c.isDigit || c = '_'

/-- Left strip: drop leading Python whitespace. -/
def stripL (l : List Char) : List Char := l.dropWhile isPyWs

/-- Python `str.strip()`: drop leading and trailing whitespace. -/
def pyStripList (l : List Char) : List Char :=
  ((l.dropWhile isPyWs).reverse.dropWhile isPyWs).reverse

/-- Python `str.strip()` on `String`. -/
def pyStrip (s : String) : String := ⟨pyStripList s.data⟩

/-- Python `sub in s` (substring containment) on character lists. -/
def hasSub (l pat : List Char) : Bool :=
  match l with
  | [] => pat.isEmpty
  | _ :: rest => pat.isPrefixOf l || hasSub rest pat

/-- Python `sub in s` on `String`. -/
def strContains (s pat : String) : Bool := hasSub s.data pat.data

/-- Python `str.upper()` on the ASCII range. -/
def pyUpper (s : String) : String := ⟨s.data.map Char.toUpper⟩

/-- Interleaved replacement: Python `s.replace("", new)` puts `new` before
every character and at the end. -/
def interReplace (new : List Char) : List Char → List Char
  | [] => new
  | c :: rest => new ++ c :: interReplace new rest

/-- Scan for Python `str.replace` with a nonempty needle: replace each
leftmost occurrence and continue after it.  The fuel is the input length
(each step consumes at least one character when the needle is nonempty). -/
def replaceAux (old new : List Char) : Nat → List Char → List Char
  | 0, s => s
  | _ + 1, [] => []
  | fuel + 1, c :: rest =>
    if old.isPrefixOf (c :: rest) then
      new ++ replaceAux old new fuel ((c :: rest).drop old.length)
    else
      c :: replaceAux old new fuel rest

/-- Python `str.replace(old, new)` (all occurrences, left to right). -/
def pyReplace (s old new : List Char) : List Char :=
  if old.isEmpty then interReplace new s else replaceAux old new s.length s

/-! ## Conversation data model

A turn is a LangChain message: system, human, AI (with optional structured
tool calls) or tool result (tagged with the call id it answers). -/

/-- A structured argument value passed to a tool: the repository's tools take
strings and lists of strings. -/
inductive ArgVal where
  | str (s : String)
  | strList (l : List String)
deriving DecidableEq

/-- One tool-call request carried by an AI message: name, arguments and the
unique call id. -/
structure ToolCall where
  name : String
  args : List (String × ArgVal)
  id : String
deriving DecidableEq

/-- A conversation turn (LangChain `BaseMessage`). -/
inductive Msg where
  | system (content : String)
  | human (content : String)
  | ai (content : String) (tool_calls : List ToolCall)
  | tool (content : String) (tool_call_id : String)
deriving DecidableEq

/-- Whether a turn is a `SystemMessage`. -/
def Msg.isSystem : Msg → Bool
  | .system _ => true
  | _ => false

/-- Whether a turn is a `HumanMessage` or an `AIMessage` (the kinds the
summarizer is fed). -/
def Msg.isHumanOrAI : Msg → Bool
  | .human _ => true
  | .ai _ _ => true
  | _ => false

/-- The content of a turn when it is a `HumanMessage`. -/
def Msg.humanContent? : Msg → Option String
  | .human c => some c
  | _ => none

/-- The tool calls carried by a turn (`[]` for kinds without the attribute;
in the graph the executor only ever sees an AI turn last). -/
def Msg.toolCalls : Msg → List ToolCall
  | .ai _ tc => tc
  | _ => []

/-- The graph state dictionary: `messages` is always present, the other keys
are read with defaults (`dict.get`), so they are optional. -/
structure AgentState where
  messages : List Msg
  long_term_summary : Option String := none
  retrieved_context : Option (List String) := none
  next_action_type : Option String := none
  intent : Option String := none
deriving DecidableEq

/-- Agent state together with the module-level FAISS vector store of
src/agent/memory.py, modelled as the list of stored texts.  The store is
initialised as `FAISS.from_texts([""], ...)`: one placeholder entry. -/
structure MemWorld where
  state : AgentState
  vectorstore : List String
deriving DecidableEq

/-- Initial vector store: the single placeholder entry. -/
def initialVectorstore : List String := [""]

/-- Retention threshold R of src/agent/memory.py. -/
def MAX_RECENT_MESSAGES : Nat := 10

/-- Eviction batch size B of src/agent/memory.py. -/
def MESSAGES_TO_SUMMARIZE_PER_BATCH : Nat := 5

/-- The memory-management node `manage_memory_node` of src/agent/memory.py.
`summarize` stands for `summary_chain.invoke(...).content`, the opaque LLM
call, receiving the filtered batch and the existing summary.  The node reads
`state["long_term_summary"]` with default "No prior summary.", and when the
non-system turn count exceeds R it evicts the oldest B conversational turns,
summarizes the Human/AI turns among them, appends a nonempty stripped summary
to the vector store, and rebuilds the message list as system turns followed
by the remaining conversational turns; otherwise it returns the state
unchanged. -/
def manage_memory_node (summarize : List Msg → String → String)
    (w : MemWorld) : MemWorld :=
  let messages := w.state.messages
  let long_term_summary := w.state.long_term_summary.getD "No prior summary."
  let conversational := messages.filter (fun m => ! m.isSystem)
  if conversational.length > MAX_RECENT_MESSAGES then
    let batch := conversational.take MESSAGES_TO_SUMMARIZE_PER_BATCH
    let to_summarize := batch.filter Msg.isHumanOrAI
    let new_summary := pyStrip (summarize to_summarize long_term_summary)
    let vectorstore' :=
      if new_summary ≠ "" then w.vectorstore ++ [new_summary] else w.vectorstore
    let remaining := conversational.drop MESSAGES_TO_SUMMARIZE_PER_BATCH
    let system_messages := messages.filter Msg.isSystem
    { state := { w.state with
                  messages := system_messages ++ remaining,
                  long_term_summary := some new_summary },
      vectorstore := vectorstore' }
  else
    w

/-- The retrieval node `retrieve_long_term_memory_node` of
src/agent/memory.py.  `search` stands for `vectorstore.similarity_search`
(the embedding oracle), given the stored texts, the query and k, returning
the matched texts.  The node finds the most recent human turn's content
(default ""), searches only when that content is truthy (nonempty) and the
store holds more than its placeholder entry, and writes the results into
`retrieved_context`, leaving every other key unchanged. -/
def retrieve_long_term_memory_node
    (search : List String → String → Nat → List String)
    (w : MemWorld) : AgentState :=
  let messages := w.state.messages
  let last_input :=
    (messages.reverse.findSome? Msg.humanContent?).getD ""
  let docs :=
    if last_input ≠ "" ∧ w.vectorstore.length > 1 then
      search w.vectorstore last_input 3
    else []
  { w.state with retrieved_context := some docs }

/-! ## The registered calculator tool (src/graph.py)

The tool's body is `str(eval(expression))` inside a try/except.  Python's
`eval` is modelled by `pyEvalStr`, a partial model that covers integer
arithmetic: decimal integer literals (leading zeros only for zero itself, as
in Python 3), hexadecimal literals, unary and binary `+`/`-`, `*`,
parentheses and blanks.  On that fragment it agrees with `str(eval(...))`;
a `none` result stands for an input outside the modelled fragment, and the
theorems below only evaluate the model inside the fragment. -/

/-- Arithmetic tokens for the modelled fragment of Python `eval`. -/
inductive PyTok where
  | num (n : Int)
  | plus
  | minus
  | star
  | lparen
  | rparen
deriving DecidableEq

/-- Hexadecimal digit test. -/
def isHexDig (c : Char) : Bool :=
  c.isDigit || ('a' ≤ c && c ≤ 'f') || ('A' ≤ c && c ≤ 'F')

/-- Hexadecimal digit value. -/
def hexVal (c : Char) : Nat :=
  if c.isDigit then c.toNat - '0'.toNat
  else if 'a' ≤ c && c ≤ 'f' then c.toNat - 'a'.toNat + 10
  else c.toNat - 'A'.toNat + 10

/-- Value of a digit run in the given base. -/
def digitsVal (base : Nat) (val : Char → Nat) (ds : List Char) : Nat :=
  ds.foldl (fun acc c => acc * base + val c) 0

/-- Lexer for the modelled fragment: blanks separate tokens; `0x`/`0X` opens a
hexadecimal literal; a decimal literal may not have a leading zero unless it
is all zeros (Python 3 rejects `01`); any other character is outside the
fragment. -/
def lexPy : Nat → List Char → Option (List PyTok)
  | 0, _ => none
  | _ + 1, [] => some []
  | fuel + 1, c :: rest =>
    if c = ' ' || c = '\t' then lexPy fuel rest
    else if c = '+' then (lexPy fuel rest).map (PyTok.plus :: ·)
    else if c = '-' then (lexPy fuel rest).map (PyTok.minus :: ·)
    else if c = '*' then (lexPy fuel rest).map (PyTok.star :: ·)
    else if c = '(' then (lexPy fuel rest).map (PyTok.lparen :: ·)
    else if c = ')' then (lexPy fuel rest).map (PyTok.rparen :: ·)
    else if c = '0' then
      match rest with
      | 'x' :: r2 | 'X' :: r2 =>
        let ds := r2.takeWhile isHexDig
        if ds.isEmpty then none
        else
          (lexPy fuel (r2.dropWhile isHexDig)).map
            (PyTok.num (Int.ofNat (digitsVal 16 hexVal ds)) :: ·)
      | _ =>
        let ds := rest.takeWhile Char.isDigit
        if ds.all (· = '0') then
          (lexPy fuel (rest.dropWhile Char.isDigit)).map (PyTok.num 0 :: ·)
        else none
    else if c.isDigit then
      let ds := (c :: rest).takeWhile Char.isDigit
      (lexPy fuel ((c :: rest).dropWhile Char.isDigit)).map
        (PyTok.num (Int.ofNat (digitsVal 10 (fun d => d.toNat - '0'.toNat) ds)) :: ·)
    else none

mutual

/-- Factor: unary signs, a literal, or a parenthesised expression. -/
def parseF : Nat → List PyTok → Option (Int × List PyTok)
  | 0, _ => none
  | fuel + 1, PyTok.minus :: ts => (parseF fuel ts).map (fun p => (-p.1, p.2))
  | fuel + 1, PyTok.plus :: ts => parseF fuel ts
  | _ + 1, PyTok.num n :: ts => some (n, ts)
  | fuel + 1, PyTok.lparen :: ts =>
    match parseE fuel ts with
    | some (v, PyTok.rparen :: r) => some (v, r)
    | _ => none
  | _ + 1, _ => none

/-- Term tail: a chain of multiplications. -/
def parseTTail : Nat → Int → List PyTok → Option (Int × List PyTok)
  | 0, _, _ => none
  | fuel + 1, acc, PyTok.star :: ts =>
    (parseF fuel ts).bind (fun p => parseTTail fuel (acc * p.1) p.2)
  | _ + 1, acc, ts => some (acc, ts)

/-- Term: a factor followed by multiplications. -/
def parseT : Nat → List PyTok → Option (Int × List PyTok)
  | 0, _ => none
  | fuel + 1, ts => (parseF fuel ts).bind (fun p => parseTTail fuel p.1 p.2)

/-- Expression tail: a chain of additions and subtractions. -/
def parseETail : Nat → Int → List PyTok → Option (Int × List PyTok)
  | 0, _, _ => none
  | fuel + 1, acc, PyTok.plus :: ts =>
    (parseT fuel ts).bind (fun p => parseETail fuel (acc + p.1) p.2)
  | fuel + 1, acc, PyTok.minus :: ts =>
    (parseT fuel ts).bind (fun p => parseETail fuel (acc - p.1) p.2)
  | _ + 1, acc, ts => some (acc, ts)

/-- Expression: a term followed by additions and subtractions. -/
def parseE : Nat → List PyTok → Option (Int × List PyTok)
  | 0, _ => none
  | fuel + 1, ts => (parseT fuel ts).bind (fun p => parseETail fuel p.1 p.2)

end

/-- Partial model of Python `str(eval(expression))` on the integer-arithmetic
fragment (see above).  `str` of a Python int prints as Lean's `toString` on
`Int`. -/
def pyEvalStr (s : String) : Option String :=
  (lexPy (s.length + 1) s.data).bind fun ts =>
    match parseE (2 * ts.length + 2) ts with
    | some (v, []) => some (toString v)
    | _ => none

/-- The `calculator` tool of src/graph.py: `str(eval(expression))`, with any
exception caught and turned into an error string (the exception detail text
appended in the source is elided here; no theorem inspects it). -/
def calculator (expression : String) : String :=
  match pyEvalStr expression with
  | some v => v
  | none =>
    "Error: Could not calculate '" ++ expression ++
      "'. Please provide a valid mathematical expression."

/-! ## The calculator node's validation (src/agent/nodes/calculator.py)

The node strips the LLM-produced expression and then raises unless it passes
`"INVALID" not in expr.upper()` and `re.match(r"^[\d\.\+\-\*\/\(\)\s]+$", expr)`.
`re.match` of that pattern succeeds exactly on nonempty strings whose
characters all lie in the class (`$` may also match before a final newline,
but a newline is itself in the class via `\s`). -/

/-- The character class `[\d\.\+\-\*\/\(\)\s]` of the validation regex. -/
def isCalcAllowed (c : Char) : Bool :=
  c.isDigit || c = '.' || c = '+' || c = '-' || c = '*' || c = '/' ||
    c = '(' || c = ')' || isPyWs c

/-- Python `str.strip(chars)`: drop leading and trailing characters equal to
`q`. -/
def pyStripChar (q : Char) (l : List Char) : List Char :=
  ((l.dropWhile (· = q)).reverse.dropWhile (· = q)).reverse

/-- The expression the node validates: `llm_response.content.strip().strip('"').strip("'")`. -/
def calcNodeExpr (content : String) : String :=
  ⟨pyStripChar '\'' (pyStripChar '"' (pyStripList content.data))⟩

/-- Whether `calculator_tool_node`'s validation accepts the (already
stripped) expression: no "INVALID" in the uppercased text, and the regex
match. -/
def calcNodeAccepts (expr : String) : Bool :=
  !(strContains (pyUpper expr) "INVALID") &&
    (!expr.data.isEmpty && expr.data.all isCalcAllowed)

/-! ## Tool executor (src/graph.py)

A registered tool is its name, the parameter names `inspect.signature`
reports for it, and its implementation; the implementation is a function of
the argument dictionary that either returns the tool's string (`Except.ok`)
or raises (`Except.error`).  The HTTP-backed tools' behaviour is opaque, so
their implementations are parameters. -/

/-- A registered tool as the executor sees it. -/
structure ToolSpec where
  name : String
  params : List String
  impl : List (String × ArgVal) → Except String String

/-- Dictionary update: `d[key] = v` (replace an existing binding, else
append). -/
def setArg (args : List (String × ArgVal)) (key : String) (v : ArgVal) :
    List (String × ArgVal) :=
  if args.any (fun p => p.1 = key) then
    args.map (fun p => if p.1 = key then (key, v) else p)
  else
    args ++ [(key, v)]

/-- Dictionary lookup by parameter name. -/
def getArg (args : List (String × ArgVal)) (key : String) : Option ArgVal :=
  (args.find? (fun p => p.1 = key)).map Prod.snd

/-- Argument injection of src/graph.py: `long_term_summary` and
`retrieved_context` are added only when the tool's signature declares them. -/
def injectMemoryArgs (t : ToolSpec) (summary : String) (ctx : List String)
    (args : List (String × ArgVal)) : List (String × ArgVal) :=
  let a1 :=
    if "long_term_summary" ∈ t.params then
      setArg args "long_term_summary" (.str summary)
    else args
  if "retrieved_context" ∈ t.params then
    setArg a1 "retrieved_context" (.strList ctx)
  else a1

/-- The not-found message of the executor. -/
def toolNotFoundMsg (name : String) : String :=
  "Tool '" ++ name ++ "' was requested but not found or not callable."

/-- The caught-exception message of the executor. -/
def toolErrorMsg (name e : String) : String :=
  "Error executing tool '" ++ name ++ "': " ++ e

/-- Processing of one tool-call request in the executor's loop: look the tool
up by name, inject memory arguments, invoke it, and wrap the result (or the
caught failure, or the not-found message) as a tool-result turn tagged with
the originating call id. -/
def runOneCall (tools : List ToolSpec) (summary : String) (ctx : List String)
    (tc : ToolCall) : Msg :=
  match tools.find? (fun t => t.name = tc.name) with
  | none => .tool (toolNotFoundMsg tc.name) tc.id
  | some t =>
    match t.impl (injectMemoryArgs t summary ctx tc.args) with
    | .ok r => .tool r tc.id
    | .error e => .tool (toolErrorMsg tc.name e) tc.id

/-- The executor's loop over `last_ai_message.tool_calls`: one tool-result
turn per request, in order. -/
def execCalls (tools : List ToolSpec) (summary : String) (ctx : List String)
    (tcs : List ToolCall) : List Msg :=
  tcs.map (runOneCall tools summary ctx)

/-- The node `tool_executor_node` of src/graph.py: reads the last message's
tool calls (an empty list yields the internal-error AI turn) and returns the
produced messages (the graph's reducer appends them to the state). -/
def tool_executor_node (tools : List ToolSpec) (state : AgentState) :
    List Msg :=
  match state.messages.getLast? with
  | none => []
  | some last =>
    if last.toolCalls.isEmpty then
      [.ai "An internal error occurred: No tool calls found." []]
    else
      execCalls tools (state.long_term_summary.getD "")
        (state.retrieved_context.getD []) last.toolCalls

/-- The calculator's registry entry: `@tool` keeps the function name, the
signature declares only `expression`, and invocation reads it (a missing or
mistyped argument is a validation failure, raised and caught by the
executor). -/
def calcSpec : ToolSpec where
  name := "calculator"
  params := ["expression"]
  impl := fun args =>
    match getArg args "expression" with
    | some (.str e) => .ok (calculator e)
    | _ => .error "validation error for tool arguments"

/-- The product tool's registry entry (src/agent/nodes/product_tool.py): its
signature declares query, long_term_summary and retrieved_context; its body
performs an HTTP call, so the implementation is a parameter. -/
def productSpec (impl : List (String × ArgVal) → Except String String) :
    ToolSpec where
  name := "get_product_info"
  params := ["query", "long_term_summary", "retrieved_context"]
  impl := impl

/-- The outlet tool's registry entry (src/agent/nodes/outlet_tool.py). -/
def outletSpec (impl : List (String × ArgVal) → Except String String) :
    ToolSpec where
  name := "get_outlet_details"
  params := ["query", "long_term_summary", "retrieved_context"]
  impl := impl

/-- The tool registry of src/graph.py: `tools = [calculator,
get_product_info, get_outlet_details]`. -/
def repoTools (prodImpl outletImpl : List (String × ArgVal) → Except String String) :
    List ToolSpec :=
  [calcSpec, productSpec prodImpl, outletSpec outletImpl]

/-! ## The outlets endpoint's result handling (src/api/start_api.py) -/

/-- The fixed message of `get_outlet_info` for an empty result. -/
def outletNotFoundMsg : String :=
  "I couldn't find any information for your query. Please try rephrasing it or searching for a different outlet."

/-- The result branch of `get_outlet_info`: `if not result or "[]" in result`
returns the fixed message, else the result itself as `query_response`. -/
def outletQueryResponse (result : String) : String :=
  if result = "" || strContains result "[]" then outletNotFoundMsg else result

/-! ## The SQL sanitizer `clean_sql_query` (src/api/start_api.py)

Each regex step is realised as a character-list transformation with the
semantics of the Python `re` calls (leftmost match, greedy/lazy repetition
with backtracking, `re.sub` continuing after each match). -/

/-- Case-insensitive ASCII character comparison (`re.IGNORECASE`). -/
def ciCh (a b : Char) : Bool := a.toLower = b.toLower

/-- Case-insensitively match `pat` as a prefix of `l`, keeping the matched
original characters, the remainder, and the splitting equations. -/
def ciTake : (pat l : List Char) →
    Option { p : List Char × List Char // p.1.length = pat.length ∧ p.1 ++ p.2 = l }
  | [], l => some ⟨([], l), by simp⟩
  | _ :: _, [] => none
  | p :: ps, c :: cs =>
    if ciCh c p then
      match ciTake ps cs with
      | some ⟨(m, r), hm⟩ =>
        some ⟨(c :: m, r), by constructor <;> simp [hm.1, hm.2]⟩
      | none => none
    else none

/-- Find the first occurrence of three consecutive backticks, splitting the
list around it. -/
def findTriple : List Char → Option (List Char × List Char)
  | '`' :: '`' :: '`' :: r => some ([], r)
  | c :: rest => (findTriple rest).map (fun p => (c :: p.1, p.2))
  | [] => none

/-- Right strip: drop trailing Python whitespace. -/
def rstripWs (l : List Char) : List Char := (l.reverse.dropWhile isPyWs).reverse

/-- The optional dialect tag after an opening fence; the alternatives are
case-sensitive and tried in the pattern's order (so "SQLQuery" is consumed as
the alternative "SQL" followed by literal text "Query"). -/
def fenceTagRest (l : List Char) : List Char :=
  match ["sql", "SQL", "SQLQuery", "mysql", "postgresql"].findSome?
      (fun tag => if tag.data.isPrefixOf l then some (l.drop tag.data.length) else none) with
  | some r => r
  | none => l

/-- Step 1: `re.sub(r"‹fence›(?:tag)?\s*(.*?)\s*‹fence›", r"\1", text, DOTALL)`.
At an opening triple backtick the optional tag and the following whitespace
run are consumed; the lazy group then ends at the first closing triple
backtick, with the whitespace run before it absorbed by the trailing `\s*`.
Without a closing fence the scan advances one character. -/
def stripFencesAux : Nat → List Char → List Char
  | 0, l => l
  | fuel + 1, l =>
    match l with
    | '`' :: '`' :: '`' :: rest =>
      let body := (fenceTagRest rest).dropWhile isPyWs
      match findTriple body with
      | some (seg, r2) => rstripWs seg ++ stripFencesAux fuel r2
      | none => '`' :: stripFencesAux fuel ('`' :: '`' :: rest)
    | c :: ls => c :: stripFencesAux fuel ls
    | [] => []

/-- Step 1 wrapper with enough fuel (each step consumes at least one
character). -/
def stripFences (l : List Char) : List Char := stripFencesAux l.length l

/-- The `\s*:\s*` tail of the label-prefix pattern. -/
def colonTail (r : List Char) : Option (List Char) :=
  match r.dropWhile isPyWs with
  | ':' :: r2 => some (r2.dropWhile isPyWs)
  | _ => none

/-- The alternative `SQL\s*Query` of the label-prefix pattern. -/
def tryLabelSqlQuery (l : List Char) : Option (List Char) :=
  match ciTake "SQL".data l with
  | some ⟨(_, r), _⟩ =>
    match ciTake "Query".data (r.dropWhile isPyWs) with
    | some ⟨(_, r2), _⟩ => colonTail r2
    | none => none
  | none => none

/-- A literal label alternative followed by `\s*:\s*`. -/
def tryLabel (pat : String) (l : List Char) : Option (List Char) :=
  match ciTake pat.data l with
  | some ⟨(_, r), _⟩ => colonTail r
  | none => none

/-- Step 2: `re.sub(r"^(?:SQL\s*Query|SQLQuery|MySQL|PostgreSQL|SQL)\s*:\s*",
"", text, IGNORECASE)` — anchored at the start, alternatives in the
pattern's order. -/
def stripPrefixLabel (l : List Char) : List Char :=
  match tryLabelSqlQuery l with
  | some r => r
  | none =>
    match ["SQLQuery", "MySQL", "PostgreSQL", "SQL"].findSome? (fun p => tryLabel p l) with
    | some r => r
    | none => l

/-- Split at the first case-insensitive occurrence of `pat`: the remainder
starts at the match. -/
def splitAtCi (pat : String) : List Char → Option (List Char × List Char)
  | [] => if pat.data.isEmpty then some ([], []) else none
  | c :: rest =>
    if (ciTake pat.data (c :: rest)).isSome then some ([], c :: rest)
    else (splitAtCi pat rest).map (fun p => (c :: p.1, p.2))

/-- Split at the first semicolon. -/
def splitAtSemi : List Char → Option (List Char × List Char)
  | [] => none
  | c :: rest =>
    if c = ';' then some ([], rest)
    else (splitAtSemi rest).map (fun p => (c :: p.1, p.2))

/-- Step 3: `re.search(r"(SELECT.*?;)", text, IGNORECASE | DOTALL)` — the
leftmost match runs from the first case-insensitive SELECT to the first
semicolon after it; when it exists everything outside it is discarded. -/
def extractSelect (l : List Char) : Option (List Char) :=
  match splitAtCi "SELECT" l with
  | none => none
  | some (_, rest) =>
    match splitAtSemi (rest.drop 6) with
    | none => none
    | some (a, _) => some (rest.take 6 ++ a ++ [';'])

/-- Step 4, fuelled scan: `re.sub(r"‹backtick›([^‹backtick›]*)‹backtick›",
r"\1", text)` — remove paired backticks left to right, keeping their
content; an unpaired backtick ends the scan (no later match can start). -/
def debacktickAux : Nat → List Char → List Char
  | 0, l => l
  | _ + 1, [] => []
  | fuel + 1, c :: rest =>
    if c = '`' then
      match rest.dropWhile (· ≠ '`') with
      | _ :: b => rest.takeWhile (· ≠ '`') ++ debacktickAux fuel b
      | [] => c :: rest
    else c :: debacktickAux fuel rest

/-- Step 4 wrapper with enough fuel (each step consumes at least one
character). -/
def debacktick (l : List Char) : List Char := debacktickAux l.length l

/-- Step 5: `re.sub(r"\s+", " ", text)` — collapse every whitespace run to a
single space (one character of lookahead keeps the recursion structural). -/
def collapseWs : List Char → List Char
  | [] => []
  | [c] => if isPyWs c then [' '] else [c]
  | c :: d :: rest =>
    if isPyWs c then
      if isPyWs d then collapseWs (d :: rest) else ' ' :: collapseWs (d :: rest)
    else c :: collapseWs (d :: rest)

/-- The keyword list of step 6, in the source's order (so at "LEFT JOIN" the
earlier alternative "JOIN" fails on "L" and the two-word keyword matches). -/
def sqlKeywords : List String :=
  ["SELECT", "FROM", "WHERE", "GROUP BY", "HAVING", "ORDER BY",
   "LIMIT", "JOIN", "LEFT JOIN", "RIGHT JOIN", "INNER JOIN",
   "OUTER JOIN", "UNION", "VALUES", "INSERT", "UPDATE", "DELETE"]

/-- Word-boundary test before a keyword: the previous character (none at the
start) must not be a word character. -/
def prevIsWord : Option Char → Bool
  | none => false
  | some c => isWordChar c

/-- Word-boundary test after a keyword. -/
def boundaryAfter : List Char → Bool
  | [] => true
  | c :: _ => ! isWordChar c

/-- One keyword-alternation attempt of step 6 at the current position, with
`\b` on both sides, alternatives in the source's order.  The final length
check is vacuous (every keyword is nonempty) and only feeds termination. -/
def kwMatchAt (prev : Option Char) (l : List Char) :
    Option { p : List Char × List Char // p.1 ++ p.2 = l ∧ p.2.length < l.length } :=
  if prevIsWord prev then none
  else
    sqlKeywords.findSome? fun kw =>
      match ciTake kw.data l with
      | some ⟨(m, r), hm⟩ =>
        if boundaryAfter r then
          if hlt : r.length < l.length then some ⟨(m, r), hm.2, hlt⟩ else none
        else none
      | none => none

/-- Step 6, fuelled scan: `re.sub(pattern, r"‹newline›\1", text, IGNORECASE)`
— insert a newline before every keyword occurrence, scanning left to right
and continuing after each match. -/
def insertKwFuel : Nat → Option Char → List Char → List Char
  | 0, _, l => l
  | _ + 1, _, [] => []
  | fuel + 1, prev, c :: rest =>
    match kwMatchAt prev (c :: rest) with
    | some mr => '\n' :: mr.1.1 ++ insertKwFuel fuel (some (mr.1.1.getLastD c)) mr.1.2
    | none => c :: insertKwFuel fuel (some c) rest

/-- Step 6 wrapper with enough fuel (each step consumes at least one
character). -/
def insertKwAux (prev : Option Char) (l : List Char) : List Char :=
  insertKwFuel l.length prev l

/-- The amended-claim side condition for idempotence, fuelled scan: exactly
as step 6 scans, every keyword match occurs at the start of the statement or
right after a space. -/
def okInsFuel : Nat → Option Char → List Char → Bool
  | 0, _, _ => true
  | _ + 1, _, [] => true
  | fuel + 1, prev, c :: rest =>
    match kwMatchAt prev (c :: rest) with
    | some mr =>
      (decide (prev = none) || decide (prev = some ' ')) &&
        okInsFuel fuel (some (mr.1.1.getLastD c)) mr.1.2
    | none => okInsFuel fuel (some c) rest

/-- The amended-claim side condition with enough fuel. -/
def okIns (prev : Option Char) (l : List Char) : Bool :=
  okInsFuel l.length prev l

/-- Split a list at its last newline (none when it has no newline). -/
def splitAtLastNl : (l : List Char) →
    Option { q : List Char × List Char // q.1 ++ '\n' :: q.2 = l }
  | [] => none
  | c :: rest =>
    match splitAtLastNl rest with
    | some ⟨(a, b), h⟩ => some ⟨(c :: a, b), by rw [← h]; rfl⟩
    | none => if hc : c = '\n' then some ⟨([], rest), by rw [hc]; rfl⟩ else none

/-- The second half of step 7, fuelled scan: `re.sub(r"\n\s*\n", "\n", text)`
— at a newline the greedy `\s*` backtracks to the last newline of the
following whitespace run; without one the scan advances. -/
def collapseBlankFuel : Nat → List Char → List Char
  | 0, l => l
  | _ + 1, [] => []
  | fuel + 1, c :: rest =>
    if c = '\n' then
      match splitAtLastNl (rest.takeWhile isPyWs) with
      | some q => '\n' :: collapseBlankFuel fuel (q.1.2 ++ rest.dropWhile isPyWs)
      | none => c :: collapseBlankFuel fuel rest
    else c :: collapseBlankFuel fuel rest

/-- The blank-line collapse with enough fuel (each step consumes at least
one character). -/
def collapseBlank (l : List Char) : List Char := collapseBlankFuel l.length l

/-- The sanitizer `clean_sql_query`, steps 1-7 in the source's order (step 7
is `strip()` followed by the blank-line collapse). -/
def clean_sql_query_list (text : List Char) : List Char :=
  let t1 := stripFences text
  let t2 := stripPrefixLabel t1
  let t3 := (extractSelect t2).getD t2
  let t4 := debacktick t3
  let t5 := collapseWs t4
  let t6 := insertKwAux none t5
  collapseBlank (pyStripList t6)

/-- The sanitizer on `String`. -/
def clean_sql_query (text : String) : String := ⟨clean_sql_query_list text.data⟩

/-! ## The fuzzy rewrite `expand_fuzzy_sql` (src/api/start_api.py)

Pattern: `(WHERE\s+[^;]*?)("address"|"full_description"|"services")\s+LIKE\s+'%(.*?)%'`
with `IGNORECASE` (no DOTALL: the lazy dot does not cross a newline). -/

/-- The quoted allow-listed column alternatives, in the pattern's order. -/
def fuzzyCols : List String := ["\"address\"", "\"full_description\"", "\"services\""]

/-- The lazy keyword capture up to the closing `%'`; a newline stops it (no
DOTALL). -/
def scanKw : List Char → Option (List Char × List Char)
  | '%' :: '\'' :: rest => some ([], rest)
  | '\n' :: _ => none
  | [] => none
  | c :: rest => (scanKw rest).map (fun p => (c :: p.1, p.2))

/-- The `\s+LIKE\s+'%(.*?)%'` tail after a captured column: at least one
whitespace, LIKE (case-insensitive), at least one whitespace, then the
quoted pattern with the keyword capture. -/
def fuzzyLikeTail (r1 : List Char) : Option (List Char × List Char) :=
  if (r1.takeWhile isPyWs).isEmpty then none
  else
    match ciTake "LIKE".data (r1.dropWhile isPyWs) with
    | some ⟨(_, r2), _⟩ =>
      if (r2.takeWhile isPyWs).isEmpty then none
      else
        match r2.dropWhile isPyWs with
        | '\'' :: '%' :: r3 => scanKw r3
        | _ => none
    | none => none

/-- The column-and-pattern tail of the fuzzy regex at the current position:
a quoted allow-listed column (case-insensitive, original text kept), then
the LIKE tail.  Returns the captured column, the captured keyword and the
remainder after the whole match. -/
def fuzzyTailAt (l : List Char) : Option (List Char × List Char × List Char) :=
  fuzzyCols.findSome? fun cn =>
    match ciTake cn.data l with
    | some ⟨(col, r1), _⟩ => (fuzzyLikeTail r1).map (fun p => (col, p.1, p.2))
    | none => none

/-- The lazy `[^;]*?` scan after `WHERE\s`: try the column tail at each
position, never crossing a semicolon. -/
def afterWhereScan : List Char → Option (List Char × List Char × List Char)
  | [] => none
  | c :: rest =>
    if c = ';' then none
    else
      match fuzzyTailAt (c :: rest) with
      | some p => some p
      | none => afterWhereScan rest

/-- A full-pattern attempt at the current position: literal `WHERE`
(case-insensitive, the pattern has no word boundary), at least one
whitespace character, then the lazy scan. -/
def whereMatchAt (l : List Char) : Option (List Char × List Char × List Char) :=
  match ciTake "WHERE".data l with
  | some ⟨(_, r0), _⟩ =>
    match r0 with
    | w :: r1 => if isPyWs w then afterWhereScan r1 else none
    | [] => none
  | none => none

/-- `re.findall` of the fuzzy pattern: non-overlapping matches left to right,
keeping the captured (column, keyword) pairs (the code ignores the first
capture group). -/
def fuzzyFindAux : Nat → List Char → List (List Char × List Char)
  | 0, _ => []
  | _ + 1, [] => []
  | fuel + 1, c :: rest =>
    match whereMatchAt (c :: rest) with
    | some (col, kw, r) => (col, kw) :: fuzzyFindAux fuel r
    | none => fuzzyFindAux fuel rest

/-- The matches of the fuzzy pattern (fuel: each step consumes at least one
character). -/
def fuzzyMatches (l : List Char) : List (List Char × List Char) :=
  fuzzyFindAux l.length l

/-- `keyword.replace(" ", "")`. -/
def keywordNoSpace (kw : List Char) : List Char := pyReplace kw [' '] []

/-- The search key `f"{column} LIKE '%{keyword}%'"` of the replacement loop. -/
def likeKey (col kw : List Char) : List Char :=
  col ++ (" LIKE '%").data ++ kw ++ ("%'").data

/-- The replacement
`f"({column} LIKE '%{keyword}%' OR REPLACE({column}, ' ', '') LIKE '%{keyword_no_space}%')"`. -/
def fuzzyClause (col kw : List Char) : List Char :=
  ("(").data ++ col ++ (" LIKE '%").data ++ kw ++ ("%' OR REPLACE(").data ++ col ++
    (", ' ', '') LIKE '%").data ++ keywordNoSpace kw ++ ("%')").data

/-- `expand_fuzzy_sql`: find all matches, then fold the replacement loop over
them (each `sql.replace` rewrites every occurrence of its key). -/
def expand_fuzzy_sql_list (sql : List Char) : List Char :=
  (fuzzyMatches sql).foldl
    (fun s p => pyReplace s (likeKey p.1 p.2) (fuzzyClause p.1 p.2)) sql

/-- `expand_fuzzy_sql` on `String`. -/
def expand_fuzzy_sql (sql : String) : String := ⟨expand_fuzzy_sql_list sql.data⟩

/-! ## Auxiliary predicates for the idempotence analysis -/

/-- Every newline is immediately followed by a non-whitespace character
(the shape of step 6's output, under which the blank-line collapse is the
identity). -/
def nlOk : List Char → Bool
  | [] => true
  | c :: rest =>
    (decide (c ≠ '\n') ||
      (match rest with
       | [] => false
       | d :: _ => ! isPyWs d)) && nlOk rest

/-- Whitespace-normal form (the shape of step 5's output): every whitespace
character is a plain space and is followed by a non-whitespace character or
the end. -/
def wsNorm : List Char → Bool
  | [] => true
  | [c] => ! isPyWs c || c = ' '
  | c :: d :: rest =>
    (! isPyWs c || (c = ' ' && ! isPyWs d)) && wsNorm (d :: rest)

/-- Drop one leading newline if present. -/
def dropNl1 : List Char → List Char
  | [] => []
  | c :: t => if c = '\n' then t else c :: t

/-! ## Concrete inputs and auxiliary predicates used by the theorems -/

/-- A captured column is an allow-listed quoted column name up to case. -/
def allowedColumn (col : List Char) : Prop :=
  col.map Char.toLower = ("\"address\"").data ∨
    col.map Char.toLower = ("\"full_description\"").data ∨
    col.map Char.toLower = ("\"services\"").data

instance (col : List Char) : Decidable (allowedColumn col) := by
  unfold allowedColumn
  infer_instance

/-- The most recent user turn's text as the retrieval node computes it. -/
def lastUserText (w : MemWorld) : String :=
  (w.state.messages.reverse.findSome? Msg.humanContent?).getD ""

/-- The spec's round-trip input: a fenced generated statement. -/
def c6Input : String :=
  "```sql\nSELECT * FROM outlets WHERE address LIKE '%SS 2%';\n```"

/-- What the sanitizer produces for `c6Input`. -/
def c6Sanitized : String :=
  "SELECT * \nFROM outlets \nWHERE address LIKE '%SS 2%';"

/-- The same statement with the column double-quoted, as the fuzzy pattern
requires. -/
def c6Quoted : String :=
  "SELECT * FROM outlets WHERE \"address\" LIKE '%SS 2%';"

/-- The two-branch OR rewrite of `c6Quoted`. -/
def c6QuotedRewritten : String :=
  "SELECT * FROM outlets WHERE (\"address\" LIKE '%SS 2%' OR REPLACE(\"address\", ' ', '') LIKE '%SS2%');"

/-- A single well-formed statement with a subquery: a keyword directly after
an opening parenthesis. -/
def c5Input : String := "SELECT * FROM (SELECT id FROM outlets) WHERE id = 1;"

/-- A single well-formed statement without a parenthesised keyword. -/
def c5WitnessInput : String := "SELECT name FROM outlets WHERE city = 'Sibu' ORDER BY name LIMIT 3;"

/-- A planner turn carrying two calculator calls. -/
def multiCallState : AgentState :=
  { messages :=
      [Msg.human "please compute",
       Msg.ai "" [⟨"calculator", [("expression", ArgVal.str "1+1")], "call_1"⟩,
                  ⟨"calculator", [("expression", ArgVal.str "2+2")], "call_2"⟩]] }

/-- A world whose index is populated but whose most recent user text is
empty. -/
def retrieveCexWorld : MemWorld :=
  { state := { messages := [Msg.human ""] }, vectorstore := ["", "stored summary"] }

/-- A world with eleven non-system turns, for the eviction witnesses. -/
def elevenTurnWorld : MemWorld :=
  { state := { messages := List.replicate 11 (Msg.human "m") },
    vectorstore := initialVectorstore }

/-! ## Theorems -/

/-- C9: the /outlets endpoint returns the fixed "couldn't find any
information" message exactly when the SQL result string is falsy (empty) or
contains the substring "[]" anywhere — even inside an otherwise non-empty
result — and returns the result as query_response otherwise. -/
theorem outlet_empty_result_branch (result : String) :
    ((result = "" ∨ strContains result "[]" = true) →
      outletQueryResponse result = outletNotFoundMsg) ∧
    ((result ≠ "" ∧ strContains result "[]" = false) →
      outletQueryResponse result = result) := by
  constructor
  · intro h
    rcases h with h | h <;> simp [outletQueryResponse, h]
  · intro h
    simp [outletQueryResponse, h.1, h.2]

/-- C9 witness: a non-empty result containing "[]" inside a row is replaced
by the fixed message, and a clean result passes through. -/
theorem outlet_empty_result_branch_witness :
    outletQueryResponse "[(1, 'ZUS SS2', [])]" = outletNotFoundMsg ∧
    outletQueryResponse "[(1, 'ZUS SS2')]" = "[(1, 'ZUS SS2')]" :=
  ⟨(outlet_empty_result_branch "[(1, 'ZUS SS2', [])]").1 (Or.inr (by decide)),
   (outlet_empty_result_branch "[(1, 'ZUS SS2')]").2 (by decide)⟩

/-- C2 counterexample: the registered calculator tool accepts the input
"0x10", which contains the character 'x' outside the allowed set, and
returns "16" instead of signalling an invalid expression. -/
theorem calculator_hex_accepted :
    calculator "0x10" = "16" ∧ 'x' ∈ ("0x10").data ∧ isCalcAllowed 'x' = false := by
  refine ⟨by decide, by decide, by decide⟩

/-- C2 amended: the registered calculator tool (src/graph.py) applies no
character restriction — an input outside the restricted set is accepted
whenever Python evaluation succeeds, e.g. the hexadecimal literal 0x10
yields 16 — while the unregistered calculator_tool_node
(src/agent/nodes/calculator.py) does enforce the restriction: its validation
accepts only nonempty expressions over digits, '.', '+', '-', '*', '/',
parentheses and whitespace, and rejects every expression containing any
other character. -/
theorem calculator_validation_contrast :
    (calculator "0x10" = "16") ∧
    (∀ e : String, calcNodeAccepts e = true →
      e.data ≠ [] ∧ ∀ c ∈ e.data, isCalcAllowed c = true) ∧
    (∀ e : String, (∃ c ∈ e.data, isCalcAllowed c = false) →
      calcNodeAccepts e = false) := by
  refine ⟨by decide, ?_, ?_⟩
  · intro e h
    unfold calcNodeAccepts at h
    rw [Bool.and_eq_true, Bool.and_eq_true] at h
    refine ⟨by simpa using h.2.1, ?_⟩
    intro c hc
    exact List.all_eq_true.mp h.2.2 c hc
  · intro e h
    obtain ⟨c, hc, hcf⟩ := h
    unfold calcNodeAccepts
    rw [Bool.eq_false_iff]
    intro habs
    rw [Bool.and_eq_true, Bool.and_eq_true] at habs
    have := List.all_eq_true.mp habs.2.2 c hc
    rw [hcf] at this
    exact Bool.false_ne_true this

/-- C6 counterexample: the sanitized round-trip statement keeps its column
unquoted, the fuzzy pattern therefore finds nothing, and the expansion
returns the statement unchanged — no two-branch OR is produced. -/
theorem fuzzy_unquoted_unchanged :
    clean_sql_query c6Input = c6Sanitized ∧
    expand_fuzzy_sql c6Sanitized = c6Sanitized ∧
    strContains c6Sanitized " OR " = false := by
  refine ⟨by decide, by decide, by decide⟩

/-- C6 amended: sanitizing the fenced input yields a statement with no fences
or backticks, but the fuzzy-expansion pass leaves that statement unchanged
because its pattern requires the column to be double-quoted; on the variant
statement with "address" double-quoted it does rewrite the LIKE clause into
the two-branch OR matching both '%SS 2%' and '%SS2%'. -/
theorem sanitize_fuzzy_roundtrip_amended :
    clean_sql_query c6Input = c6Sanitized ∧
    strContains c6Sanitized "```" = false ∧
    strContains c6Sanitized "`" = false ∧
    expand_fuzzy_sql c6Sanitized = c6Sanitized ∧
    expand_fuzzy_sql c6Quoted = c6QuotedRewritten := by
  refine ⟨by decide, by decide, by decide, by decide, by decide⟩

/-- C3 counterexample: a planner turn carrying two calculator calls has both
dispatched — the executor returns two tool-result turns, the second carrying
the second call's computed result. -/
theorem executor_second_call_executed :
    tool_executor_node (repoTools (fun _ => .ok "") (fun _ => .ok ""))
        multiCallState =
      [Msg.tool "2" "call_1", Msg.tool "4" "call_2"] := by
  decide

/-- C3 amended: the executor dispatches every tool-call request of the
planner turn, in order, producing one tool-result turn per request — not
only the first. -/
theorem executor_dispatches_every_call (tools : List ToolSpec)
    (state : AgentState) (last : Msg)
    (h : state.messages.getLast? = some last)
    (hne : last.toolCalls ≠ []) :
    tool_executor_node tools state =
      last.toolCalls.map
        (runOneCall tools (state.long_term_summary.getD "")
          (state.retrieved_context.getD [])) := by
  unfold tool_executor_node
  rw [h]
  simp only [List.isEmpty_iff, execCalls]
  rw [if_neg hne]

/-- C3 amended witness: both calls of the two-call turn are mapped to
tool-result turns. -/
theorem executor_dispatches_every_call_witness :
    tool_executor_node (repoTools (fun _ => .ok "") (fun _ => .ok ""))
        multiCallState =
      (Msg.ai "" [⟨"calculator", [("expression", ArgVal.str "1+1")], "call_1"⟩,
                  ⟨"calculator", [("expression", ArgVal.str "2+2")], "call_2"⟩]).toolCalls.map
        (runOneCall (repoTools (fun _ => .ok "") (fun _ => .ok ""))
          (multiCallState.long_term_summary.getD "")
          (multiCallState.retrieved_context.getD [])) :=
  executor_dispatches_every_call _ _ _ (by decide) (by decide)

/-- C4: the executor produces exactly one tool-result turn per tool-call
request, tagged with the originating call id; an unregistered name yields
the not-found turn, a raising implementation is caught and yields the
error-description turn, a successful one wraps its result — in every case a
turn is produced and no exception escapes. -/
theorem executor_one_result_per_call (tools : List ToolSpec)
    (summary : String) (ctx : List String) (tcs : List ToolCall) :
    (execCalls tools summary ctx tcs = tcs.map (runOneCall tools summary ctx)) ∧
    (execCalls tools summary ctx tcs).length = tcs.length ∧
    ∀ tc ∈ tcs,
      (∃ content, runOneCall tools summary ctx tc = Msg.tool content tc.id) ∧
      (tools.find? (fun t => t.name = tc.name) = none →
        runOneCall tools summary ctx tc = Msg.tool (toolNotFoundMsg tc.name) tc.id) ∧
      (∀ t, tools.find? (fun t => t.name = tc.name) = some t →
        (∀ e, t.impl (injectMemoryArgs t summary ctx tc.args) = .error e →
          runOneCall tools summary ctx tc = Msg.tool (toolErrorMsg tc.name e) tc.id) ∧
        (∀ r, t.impl (injectMemoryArgs t summary ctx tc.args) = .ok r →
          runOneCall tools summary ctx tc = Msg.tool r tc.id)) := by
  refine ⟨rfl, by simp [execCalls], ?_⟩
  intro tc _
  refine ⟨?_, ?_, ?_⟩
  · cases hf : tools.find? (fun t => t.name = tc.name) with
    | none => exact ⟨toolNotFoundMsg tc.name, by simp [runOneCall, hf]⟩
    | some t =>
      cases hi : t.impl (injectMemoryArgs t summary ctx tc.args) with
      | ok r => exact ⟨r, by simp [runOneCall, hf, hi]⟩
      | error e => exact ⟨toolErrorMsg tc.name e, by simp [runOneCall, hf, hi]⟩
  · intro hf
    simp [runOneCall, hf]
  · intro t hf
    constructor
    · intro e hi
      simp [runOneCall, hf, hi]
    · intro r hi
      simp [runOneCall, hf, hi]

/-- Helper: a drop of a filtered list still satisfies the filter. -/
theorem filter_drop_filter (p : Msg → Bool) (l : List Msg) (n : Nat) :
    ((l.filter p).drop n).filter p = (l.filter p).drop n := by
  rw [List.filter_eq_self]
  intro a ha
  exact List.of_mem_filter (List.drop_subset n (l.filter p) ha)

/-- C1: when the non-system turn count exceeds R=10 the node summarizes the
Human/AI turns among the oldest B=5 conversational turns and returns a state
whose message list is exactly the system turns followed by the remaining
conversational turns (their count drops by 5, so 6 remain when starting
from 11) and whose long-term summary is the newly produced summary; with at
most 10 non-system turns the input world is returned unchanged. -/
theorem manage_memory_eviction_spec (summarize : List Msg → String → String)
    (w : MemWorld) :
    ((w.state.messages.filter (fun m => ! m.isSystem)).length > 10 →
      (manage_memory_node summarize w).state.messages =
        w.state.messages.filter Msg.isSystem ++
          (w.state.messages.filter (fun m => ! m.isSystem)).drop 5 ∧
      (manage_memory_node summarize w).state.long_term_summary =
        some (pyStrip (summarize
          (((w.state.messages.filter (fun m => ! m.isSystem)).take 5).filter Msg.isHumanOrAI)
          (w.state.long_term_summary.getD "No prior summary."))) ∧
      ((manage_memory_node summarize w).state.messages.filter
          (fun m => ! m.isSystem)).length =
        (w.state.messages.filter (fun m => ! m.isSystem)).length - 5) ∧
    ((w.state.messages.filter (fun m => ! m.isSystem)).length ≤ 10 →
      manage_memory_node summarize w = w) := by
  constructor
  · intro h
    have hnode :
        (manage_memory_node summarize w).state.messages =
          w.state.messages.filter Msg.isSystem ++
            (w.state.messages.filter (fun m => ! m.isSystem)).drop 5 ∧
        (manage_memory_node summarize w).state.long_term_summary =
          some (pyStrip (summarize
            (((w.state.messages.filter (fun m => ! m.isSystem)).take 5).filter Msg.isHumanOrAI)
            (w.state.long_term_summary.getD "No prior summary."))) := by
      simp only [manage_memory_node, MAX_RECENT_MESSAGES, MESSAGES_TO_SUMMARIZE_PER_BATCH]
      rw [if_pos (by omega)]
      exact ⟨rfl, rfl⟩
    refine ⟨hnode.1, hnode.2, ?_⟩
    rw [hnode.1, List.filter_append, List.filter_filter]
    simp only [Bool.not_and_self, List.filter_false, List.nil_append]
    rw [filter_drop_filter (fun m => ! m.isSystem) w.state.messages 5]
    simp [List.length_drop]
  · intro h
    simp only [manage_memory_node, MAX_RECENT_MESSAGES]
    rw [if_neg (by omega)]

/-- C10: when eviction fires and the summarizer's output strips to the empty
string, the node still evicts the batch, skips the semantic-index append and
sets the returned summary to the empty string — the previous summary is not
preserved. -/
theorem manage_memory_blank_summary (summarize : List Msg → String → String)
    (w : MemWorld)
    (h : (w.state.messages.filter (fun m => ! m.isSystem)).length > 10)
    (hblank : pyStrip (summarize
        (((w.state.messages.filter (fun m => ! m.isSystem)).take 5).filter Msg.isHumanOrAI)
        (w.state.long_term_summary.getD "No prior summary.")) = "") :
    (manage_memory_node summarize w).vectorstore = w.vectorstore ∧
    (manage_memory_node summarize w).state.long_term_summary = some "" ∧
    (manage_memory_node summarize w).state.messages =
      w.state.messages.filter Msg.isSystem ++
        (w.state.messages.filter (fun m => ! m.isSystem)).drop 5 := by
  simp only [manage_memory_node, MAX_RECENT_MESSAGES, MESSAGES_TO_SUMMARIZE_PER_BATCH]
  rw [if_pos (by omega)]
  rw [hblank]
  exact ⟨by simp, rfl, rfl⟩

/-- C10 witness: eleven one-word user turns with a summarizer returning a
blank string — the store keeps only its placeholder, the summary becomes
empty and six conversational turns remain. -/
theorem manage_memory_blank_summary_witness :
    (manage_memory_node (fun _ _ => " ") elevenTurnWorld).vectorstore =
      elevenTurnWorld.vectorstore ∧
    (manage_memory_node (fun _ _ => " ") elevenTurnWorld).state.long_term_summary =
      some "" ∧
    (manage_memory_node (fun _ _ => " ") elevenTurnWorld).state.messages =
      elevenTurnWorld.state.messages.filter Msg.isSystem ++
        (elevenTurnWorld.state.messages.filter (fun m => ! m.isSystem)).drop 5 :=
  manage_memory_blank_summary (fun _ _ => " ") elevenTurnWorld (by decide) (by decide)

/-- C8 counterexample: a user turn exists and the index holds more than its
placeholder, yet because the most recent user text is empty the node skips
the search and returns empty snippets where the claim requires the top-3
search results (here the search oracle would return ["doc"]). -/
theorem retrieve_empty_text_no_search :
    (Msg.human "") ∈ retrieveCexWorld.state.messages ∧
    retrieveCexWorld.vectorstore.length > 1 ∧
    (retrieve_long_term_memory_node (fun _ _ _ => ["doc"])
        retrieveCexWorld).retrieved_context = some [] ∧
    (["doc"] : List String) ≠ [] := by
  refine ⟨by decide, by decide, by decide, by decide⟩

/-- C8 amended: the node returns an empty snippet list whenever no
user-authored turn exists, the most recent user turn's text is empty, or the
semantic index holds at most its initial placeholder entry; otherwise it
returns the top-k search results with k=3 against the most recent user
text; every other state field is returned unchanged. -/
theorem retrieve_node_behaviour_amended
    (search : List String → String → Nat → List String) (w : MemWorld) :
    ((lastUserText w = "" ∨ w.vectorstore.length ≤ 1) →
      (retrieve_long_term_memory_node search w).retrieved_context = some []) ∧
    ((lastUserText w ≠ "" ∧ w.vectorstore.length > 1) →
      (retrieve_long_term_memory_node search w).retrieved_context =
        some (search w.vectorstore (lastUserText w) 3)) ∧
    (retrieve_long_term_memory_node search w).messages = w.state.messages ∧
    (retrieve_long_term_memory_node search w).long_term_summary =
      w.state.long_term_summary ∧
    (retrieve_long_term_memory_node search w).next_action_type =
      w.state.next_action_type ∧
    (retrieve_long_term_memory_node search w).intent = w.state.intent := by
  refine ⟨?_, ?_, rfl, rfl, rfl, rfl⟩
  · intro h
    have hnc : ¬ ((lastUserText w ≠ "") ∧ w.vectorstore.length > 1) := by
      intro hc
      rcases h with h | h
      · exact hc.1 h
      · exact absurd hc.2 (by omega)
    simp only [lastUserText] at hnc
    simp only [retrieve_long_term_memory_node]
    rw [if_neg hnc]
  · intro h
    have hp : (lastUserText w ≠ "") ∧ w.vectorstore.length > 1 := h
    simp only [lastUserText] at hp
    simp only [retrieve_long_term_memory_node, lastUserText]
    rw [if_pos hp]

/-- Helper: a case-insensitive match returns the pattern's characters up to
letter case. -/
theorem ciTake_lower (pat : List Char) : ∀ (l : List Char) x,
    ciTake pat l = some x → x.1.1.map Char.toLower = pat.map Char.toLower := by
  induction pat with
  | nil =>
    intro l x h
    simp only [ciTake] at h
    cases h
    rfl
  | cons p ps ih =>
    intro l x h
    cases l with
    | nil => simp [ciTake] at h
    | cons c cs =>
      simp only [ciTake] at h
      split at h
      · rename_i hc
        cases hct : ciTake ps cs with
        | none => rw [hct] at h; exact absurd h (by simp)
        | some y =>
          obtain ⟨⟨m, r⟩, hm⟩ := y
          rw [hct] at h
          cases h
          simp only [List.map_cons, List.cons.injEq]
          have hcp : c.toLower = p.toLower := by simpa [ciCh] using hc
          exact ⟨hcp, ih cs ⟨(m, r), hm⟩ hct⟩
      · exact absurd h (by simp)

/-- Helper: every column captured by the column-tail matcher is
allow-listed. -/
theorem fuzzyTailAt_col (l col kw r : List Char)
    (h : fuzzyTailAt l = some (col, kw, r)) : allowedColumn col := by
  unfold fuzzyTailAt at h
  obtain ⟨cn, hcn, hf⟩ := List.exists_of_findSome?_eq_some h
  cases hct : ciTake cn.data l with
  | none => rw [hct] at hf; exact absurd hf (by simp)
  | some x =>
    obtain ⟨⟨colm, r1⟩, hx⟩ := x
    rw [hct] at hf
    simp only [Option.map_eq_some'] at hf
    obtain ⟨p, _, hp⟩ := hf
    have hcol : col = colm := by
      have := congrArg Prod.fst hp
      simpa using this.symm
    subst hcol
    have hlow := ciTake_lower cn.data l ⟨(col, r1), hx⟩ hct
    simp only at hlow
    unfold allowedColumn
    simp only [fuzzyCols, List.mem_cons, List.not_mem_nil, or_false] at hcn
    rcases hcn with rfl | rfl | rfl
    · left; rw [hlow]; decide
    · right; left; rw [hlow]; decide
    · right; right; rw [hlow]; decide

/-- Helper: the lazy scan only returns allow-listed columns. -/
theorem afterWhereScan_col : ∀ (l col kw r : List Char),
    afterWhereScan l = some (col, kw, r) → allowedColumn col := by
  intro l
  induction l with
  | nil => intro col kw r h; simp [afterWhereScan] at h
  | cons c rest ih =>
    intro col kw r h
    simp only [afterWhereScan] at h
    split at h
    · exact absurd h (by simp)
    · cases hft : fuzzyTailAt (c :: rest) with
      | some p =>
        rw [hft] at h
        have hp : p = (col, kw, r) := by simpa using h
        exact fuzzyTailAt_col (c :: rest) col kw r (hp ▸ hft)
      | none =>
        rw [hft] at h
        exact ih col kw r h

/-- Helper: a full-pattern match only captures allow-listed columns. -/
theorem whereMatchAt_col (l col kw r : List Char)
    (h : whereMatchAt l = some (col, kw, r)) : allowedColumn col := by
  unfold whereMatchAt at h
  cases hct : ciTake ("WHERE").data l with
  | none => rw [hct] at h; exact absurd h (by simp)
  | some x =>
    obtain ⟨⟨m, r0⟩, hx⟩ := x
    rw [hct] at h
    cases r0 with
    | nil => exact absurd h (by simp)
    | cons wch r1 =>
      simp only at h
      split at h
      · exact afterWhereScan_col r1 col kw r h
      · exact absurd h (by simp)

/-- Helper: the findall scan only captures allow-listed columns. -/
theorem fuzzyFindAux_col : ∀ (fuel : Nat) (l : List Char)
    (p : List Char × List Char), p ∈ fuzzyFindAux fuel l → allowedColumn p.1 := by
  intro fuel
  induction fuel with
  | zero => intro l p h; simp [fuzzyFindAux] at h
  | succ fuel ih =>
    intro l p h
    cases l with
    | nil => simp [fuzzyFindAux] at h
    | cons c rest =>
      simp only [fuzzyFindAux] at h
      cases hw : whereMatchAt (c :: rest) with
      | some q =>
        obtain ⟨col, kw, r⟩ := q
        rw [hw] at h
        rcases List.mem_cons.mp h with rfl | h2
        · exact whereMatchAt_col (c :: rest) col kw r hw
        · exact ih r p h2
      | none =>
        rw [hw] at h
        exact ih rest p h

/-- C7: the fuzzy-expansion pass only ever captures (and therefore only ever
rewrites) LIKE clauses whose column is one of the allow-listed quoted names
{address, full_description, services}, and when its pattern does not match
at all the statement is returned unchanged. -/
theorem fuzzy_allowlist_passthrough (sql : String) :
    (fuzzyMatches sql.data = [] → expand_fuzzy_sql sql = sql) ∧
    (∀ p ∈ fuzzyMatches sql.data, allowedColumn p.1) := by
  constructor
  · intro h
    unfold expand_fuzzy_sql expand_fuzzy_sql_list
    rw [h]
    cases sql
    rfl
  · intro p hp
    exact fuzzyFindAux_col sql.data.length sql.data p hp

/-! ### Character toolkit for case-insensitive matching -/

/-- A character in the ASCII uppercase range is a word character. -/
theorem char_upper_range_word (c : Char) (h1 : 65 ≤ c.toNat) (h2 : c.toNat ≤ 90) :
    isWordChar c = true := by
  unfold isWordChar Char.isAlpha Char.isUpper
  simp only [Bool.or_eq_true, Bool.and_eq_true, decide_eq_true_eq, ge_iff_le]
  exact Or.inl (Or.inl (Or.inl ⟨h1, h2⟩))

/-- A character in the ASCII uppercase range is not whitespace. -/
theorem char_upper_range_not_ws (c : Char) (h1 : 65 ≤ c.toNat) (h2 : c.toNat ≤ 90) :
    isPyWs c = false := by
  rw [Bool.eq_false_iff]
  intro habs
  simp only [isPyWs, Bool.or_eq_true, decide_eq_true_eq] at habs
  rcases habs with ((((h | h) | h) | h) | h) | h <;>
    (subst h; exact absurd h1 (by decide))

/-- `toLower` fixes every character outside the ASCII uppercase range. -/
theorem toLower_of_not_upper (c : Char) (h : ¬ (65 ≤ c.toNat ∧ c.toNat ≤ 90)) :
    c.toLower = c := by
  unfold Char.toLower
  simp [h]

/-- A character whose lowering is a word character is one. -/
theorem word_of_toLower_word (c : Char) (h : isWordChar c.toLower = true) :
    isWordChar c = true := by
  by_cases hr : 65 ≤ c.toNat ∧ c.toNat ≤ 90
  · exact char_upper_range_word c hr.1 hr.2
  · rw [toLower_of_not_upper c hr] at h
    exact h

/-- A character whose lowering is not whitespace is not whitespace. -/
theorem not_ws_of_toLower_not_ws (c : Char) (h : isPyWs c.toLower = false) :
    isPyWs c = false := by
  by_cases hr : 65 ≤ c.toNat ∧ c.toNat ≤ 90
  · exact char_upper_range_not_ws c hr.1 hr.2
  · rw [toLower_of_not_upper c hr] at h
    exact h

/-- Characters with distinct lowerings are distinct. -/
theorem ne_of_toLower_ne (c d : Char) (h : c.toLower ≠ d.toLower) : c ≠ d :=
  fun he => h (he ▸ rfl)

/-- A non-whitespace character is not a newline. -/
theorem ne_nl_of_not_ws (c : Char) (h : isPyWs c = false) : c ≠ '\n' := by
  intro he
  subst he
  exact absurd h (by decide)

/-! ### List helpers -/

/-- Dropping while a predicate holds commutes with appending one failing
element. -/
theorem dropWhile_append_not (p : Char → Bool) (c : Char) (hc : p c = false) :
    ∀ l : List Char, (l ++ [c]).dropWhile p = l.dropWhile p ++ [c] := by
  intro l
  induction l with
  | nil => simp [List.dropWhile, hc]
  | cons a l' ih =>
    by_cases ha : p a
    · simp [List.dropWhile_cons, ha, ih]
    · simp [List.dropWhile_cons, ha]

/-- Counting a character not dropped by `dropWhile` is invariant when every
dropped character differs from it. -/
theorem count_dropWhile_of_ne (p : Char → Bool) (c : Char)
    (hpc : ∀ a, p a = true → a ≠ c) :
    ∀ l : List Char, (l.dropWhile p).count c = l.count c := by
  intro l
  induction l with
  | nil => rfl
  | cons a l' ih =>
    by_cases ha : p a
    · rw [List.dropWhile_cons_of_pos ha, ih, List.count_cons]
      simp [hpc a ha]
    · rw [List.dropWhile_cons_of_neg (by simp [ha])]

/-- The head of a `dropWhile` result fails the predicate. -/
theorem dropWhile_head_false (p : Char → Bool) :
    ∀ (l c : List Char) (a : Char), l.dropWhile p = a :: c → p a = false := by
  intro l
  induction l with
  | nil => intro c a h; simp [List.dropWhile] at h
  | cons b l' ih =>
    intro c a h
    by_cases hb : p b
    · rw [List.dropWhile_cons_of_pos hb] at h
      exact ih c a h
    · rw [List.dropWhile_cons_of_neg (by simp [hb])] at h
      cases h
      exact Bool.eq_false_iff.mpr hb

/-! ### Whitespace-collapse lemmas -/

/-- Step equation at a non-whitespace head. -/
theorem collapseWs_cons_not (c : Char) (l : List Char) (hc : isPyWs c = false) :
    collapseWs (c :: l) = c :: collapseWs l := by
  cases l with
  | nil => simp [collapseWs, hc]
  | cons d rest => simp [collapseWs, hc]

/-- Step equation at a whitespace head: the whole run collapses to one
space. -/
theorem collapseWs_cons_ws (c : Char) (l : List Char) (hc : isPyWs c = true) :
    collapseWs (c :: l) = ' ' :: collapseWs (l.dropWhile isPyWs) := by
  induction l generalizing c with
  | nil => simp [collapseWs, hc]
  | cons d rest ih =>
    by_cases hd : isPyWs d
    · rw [List.dropWhile_cons_of_pos hd]
      rw [show collapseWs (c :: d :: rest) = collapseWs (d :: rest) by
        simp [collapseWs, hc, hd]]
      exact ih d hd
    · rw [List.dropWhile_cons_of_neg (by simp [hd])]
      simp [collapseWs, hc, hd]

/-- The collapse steps through a non-whitespace prefix unchanged. -/
theorem collapseWs_append_nonws (p z : List Char)
    (hp : ∀ a ∈ p, isPyWs a = false) :
    collapseWs (p ++ z) = p ++ collapseWs z := by
  induction p with
  | nil => rfl
  | cons a p' ih =>
    rw [List.cons_append, collapseWs_cons_not a _ (hp a (by simp))]
    rw [ih (fun b hb => hp b (by simp [hb]))]
    rfl

/-- The collapse commutes with appending one non-whitespace character. -/
theorem collapseWs_snoc (c : Char) (hc : isPyWs c = false) :
    ∀ (n : Nat) (l : List Char), l.length ≤ n →
      collapseWs (l ++ [c]) = collapseWs l ++ [c] := by
  intro n
  induction n with
  | zero =>
    intro l h
    have : l = [] := List.length_eq_zero.mp (Nat.le_zero.mp h)
    subst this
    simp [collapseWs, hc]
  | succ n ih =>
    intro l h
    cases l with
    | nil => simp [collapseWs, hc]
    | cons a l' =>
      by_cases ha : isPyWs a
      · rw [List.cons_append, collapseWs_cons_ws a _ ha, collapseWs_cons_ws a l' ha]
        rw [dropWhile_append_not isPyWs c hc l']
        rw [ih (l'.dropWhile isPyWs)
          (by
            have h2 := congrArg List.length (List.takeWhile_append_dropWhile isPyWs l')
            simp only [List.length_append] at h2
            simp only [List.length_cons] at h
            omega)]
        rfl
      · rw [List.cons_append, collapseWs_cons_not a _ (by simp [ha]),
          collapseWs_cons_not a _ (by simp [ha])]
        rw [ih l' (by simp only [List.length_cons] at h; omega)]
        rfl

/-- The collapse splits at a segment boundary that ends in a non-whitespace
character. -/
theorem collapseWs_append_boundary (e : Char) (he : isPyWs e = false) :
    ∀ (n : Nat) (x y : List Char), x.length ≤ n →
      collapseWs (x ++ e :: y) = collapseWs (x ++ [e]) ++ collapseWs y := by
  intro n
  induction n with
  | zero =>
    intro x y h
    have : x = [] := List.length_eq_zero.mp (Nat.le_zero.mp h)
    subst this
    simp only [List.nil_append]
    rw [collapseWs_cons_not e y he]
    simp [collapseWs, he]
  | succ n ih =>
    intro x y h
    cases x with
    | nil =>
      simp only [List.nil_append]
      rw [collapseWs_cons_not e y he]
      simp [collapseWs, he]
    | cons a x' =>
      simp only [List.length_cons] at h
      by_cases ha : isPyWs a
      · rw [List.cons_append, List.cons_append, collapseWs_cons_ws a _ ha,
          collapseWs_cons_ws a _ ha]
        rw [List.dropWhile_append, List.dropWhile_append]
        by_cases hx : (x'.dropWhile isPyWs).isEmpty
        · rw [if_pos hx, if_pos hx]
          rw [List.dropWhile_cons_of_neg (by simp [he]),
            List.dropWhile_cons_of_neg (by simp [he])]
          rw [collapseWs_cons_not e y he]
          simp [collapseWs, he]
        · rw [if_neg hx, if_neg hx]
          have hlen : (x'.dropWhile isPyWs).length ≤ x'.length := by
            have h2 := congrArg List.length (List.takeWhile_append_dropWhile isPyWs x')
            simp only [List.length_append] at h2
            omega
          rw [ih (x'.dropWhile isPyWs) y (by omega)]
          rfl
      · rw [List.cons_append, List.cons_append,
          collapseWs_cons_not a _ (by simp [ha]),
          collapseWs_cons_not a _ (by simp [ha])]
        rw [ih x' y (by omega)]
        rfl

/-- Counting a non-whitespace character is invariant under the collapse. -/
theorem collapseWs_count (c : Char) (hc : isPyWs c = false) :
    ∀ (n : Nat) (l : List Char), l.length ≤ n →
      (collapseWs l).count c = l.count c := by
  intro n
  induction n with
  | zero =>
    intro l h
    have : l = [] := List.length_eq_zero.mp (Nat.le_zero.mp h)
    subst this
    rfl
  | succ n ih =>
    intro l h
    cases l with
    | nil => rfl
    | cons a l' =>
      simp only [List.length_cons] at h
      by_cases ha : isPyWs a
      · rw [collapseWs_cons_ws a l' ha]
        have hlen : (l'.dropWhile isPyWs).length ≤ l'.length := by
          have h2 := congrArg List.length (List.takeWhile_append_dropWhile isPyWs l')
          simp only [List.length_append] at h2
          omega
        rw [List.count_cons, List.count_cons, ih (l'.dropWhile isPyWs) (by omega)]
        rw [count_dropWhile_of_ne isPyWs c
          (fun b hb => by intro he; subst he; rw [hb] at hc; exact absurd hc (by decide)) l']
        have hca : (' ' == c) = false := by
          simp only [beq_eq_false_iff_ne, ne_eq]
          intro he
          rw [← he] at hc
          exact absurd hc (by decide)
        have hcb : (a == c) = false := by
          simp only [beq_eq_false_iff_ne, ne_eq]
          intro he
          rw [he] at ha
          rw [ha] at hc
          exact absurd hc (by decide)
        rw [hca, hcb]
      · rw [collapseWs_cons_not a l' (by simp [ha])]
        rw [List.count_cons, List.count_cons, ih l' (by omega)]

/-! ### Whitespace-normal-form lemmas -/

/-- Normal form is closed under taking the tail. -/
theorem wsNorm_tail (c : Char) (l : List Char) (h : wsNorm (c :: l) = true) :
    wsNorm l = true := by
  cases l with
  | nil => rfl
  | cons d rest =>
    simp only [wsNorm, Bool.and_eq_true] at h
    exact h.2

/-- Normal form is closed under dropping a prefix. -/
theorem wsNorm_suffix : ∀ (a b : List Char), wsNorm (a ++ b) = true → wsNorm b = true := by
  intro a
  induction a with
  | nil => intro b h; exact h
  | cons c a' ih =>
    intro b h
    exact ih b (wsNorm_tail c (a' ++ b) h)

/-- In normal form every whitespace character is a plain space. -/
theorem wsNorm_ws_space : ∀ (l : List Char), wsNorm l = true →
    ∀ c ∈ l, isPyWs c = true → c = ' ' := by
  intro l
  induction l with
  | nil => intro _ c hc; simp at hc
  | cons a l' ih =>
    intro h c hc hws
    rcases List.mem_cons.mp hc with rfl | hmem
    · cases l' with
      | nil =>
        simp only [wsNorm, Bool.or_eq_true, Bool.not_eq_true'] at h
        rcases h with h | h
        · rw [h] at hws; exact absurd hws (by decide)
        · exact of_decide_eq_true h
      | cons d rest =>
        simp only [wsNorm, Bool.and_eq_true, Bool.or_eq_true, Bool.not_eq_true'] at h
        rcases h.1 with h1 | h1
        · rw [h1] at hws; exact absurd hws (by decide)
        · exact of_decide_eq_true h1.1
    · exact ih (wsNorm_tail a l' h) c hmem hws

/-- In normal form no character is a newline. -/
theorem wsNorm_no_nl (l : List Char) (h : wsNorm l = true) :
    ∀ c ∈ l, c ≠ '\n' := by
  intro c hc he
  subst he
  have := wsNorm_ws_space l h '\n' hc (by decide)
  exact absurd this (by decide)

/-- In normal form a whitespace head is followed by a non-whitespace
character. -/
theorem wsNorm_ws_next (c d : Char) (rest : List Char)
    (h : wsNorm (c :: d :: rest) = true) (hc : isPyWs c = true) :
    isPyWs d = false := by
  simp only [wsNorm, Bool.and_eq_true, Bool.or_eq_true, Bool.not_eq_true'] at h
  rcases h.1 with h1 | h1
  · rw [h1] at hc; exact absurd hc (by decide)
  · exact h1.2

/-- A non-whitespace head preserves normal form. -/
theorem wsNorm_cons_not (c : Char) (l : List Char) (hc : isPyWs c = false)
    (h : wsNorm l = true) : wsNorm (c :: l) = true := by
  cases l with
  | nil => simp [wsNorm, hc]
  | cons d rest => simp [wsNorm, hc, h]

/-- The collapse of a whitespace-dropped list is empty or starts with a
non-whitespace character. -/
theorem collapseWs_dropWhile_shape (l : List Char) :
    collapseWs (l.dropWhile isPyWs) = [] ∨
      ∃ d z, collapseWs (l.dropWhile isPyWs) = d :: z ∧ isPyWs d = false := by
  cases hdw : l.dropWhile isPyWs with
  | nil => exact Or.inl rfl
  | cons c r =>
    have hc := dropWhile_head_false isPyWs l r c hdw
    rw [collapseWs_cons_not c r hc]
    exact Or.inr ⟨c, collapseWs r, rfl, hc⟩

/-- The collapse always produces normal form. -/
theorem wsNorm_collapseWs : ∀ (n : Nat) (l : List Char), l.length ≤ n →
    wsNorm (collapseWs l) = true := by
  intro n
  induction n with
  | zero =>
    intro l h
    have : l = [] := List.length_eq_zero.mp (Nat.le_zero.mp h)
    subst this
    rfl
  | succ n ih =>
    intro l h
    cases l with
    | nil => rfl
    | cons a l' =>
      simp only [List.length_cons] at h
      by_cases ha : isPyWs a
      · rw [collapseWs_cons_ws a l' ha]
        have hlen : (l'.dropWhile isPyWs).length ≤ l'.length := by
          have h2 := congrArg List.length (List.takeWhile_append_dropWhile isPyWs l')
          simp only [List.length_append] at h2
          omega
        have hz := ih (l'.dropWhile isPyWs) (by omega)
        rcases collapseWs_dropWhile_shape l' with hsh | ⟨d, z, hsh, hd⟩
        · rw [hsh]; rfl
        · rw [hsh] at hz ⊢
          simp [wsNorm, hd, hz]
      · rw [collapseWs_cons_not a l' (by simp [ha])]
        exact wsNorm_cons_not a (collapseWs l') (by simp [ha]) (ih l' (by omega))

/-- Normal form is a fixed point of the collapse. -/
theorem collapseWs_eq_self_of_wsNorm : ∀ (l : List Char), wsNorm l = true →
    collapseWs l = l := by
  intro l
  induction l with
  | nil => intro _; rfl
  | cons a l' ih =>
    intro h
    by_cases ha : isPyWs a
    · have ha' : a = ' ' := wsNorm_ws_space (a :: l') h a (by simp) ha
      cases l' with
      | nil => subst ha'; rfl
      | cons d rest =>
        have hd : isPyWs d = false := wsNorm_ws_next a d rest h ha
        rw [collapseWs_cons_ws a (d :: rest) ha]
        rw [List.dropWhile_cons_of_neg (by simp [hd])]
        rw [ih (wsNorm_tail a (d :: rest) h)]
        rw [ha']
    · rw [collapseWs_cons_not a l' (by simp [ha])]
      rw [ih (wsNorm_tail a l' h)]

/-! ### Backtick-removal lemmas -/

/-- The fuelled scan is independent of the fuel once it covers the input. -/
theorem debacktickAux_congr : ∀ (f1 f2 : Nat) (l : List Char),
    l.length ≤ f1 → l.length ≤ f2 → debacktickAux f1 l = debacktickAux f2 l := by
  intro f1
  induction f1 with
  | zero =>
    intro f2 l h1 _
    have : l = [] := List.length_eq_zero.mp (Nat.le_zero.mp h1)
    subst this
    cases f2 <;> rfl
  | succ f1 ih =>
    intro f2 l h1 h2
    cases l with
    | nil => cases f2 <;> rfl
    | cons c rest =>
      cases f2 with
      | zero => simp at h2
      | succ f2 =>
        simp only [List.length_cons] at h1 h2
        simp only [debacktickAux]
        by_cases hc : c = '`'
        · rw [if_pos hc, if_pos hc]
          cases hdw : rest.dropWhile (· ≠ '`') with
          | nil => rfl
          | cons b0 b =>
            have hlen := congrArg List.length (List.takeWhile_append_dropWhile (· ≠ '`') rest)
            rw [hdw] at hlen
            simp only [List.length_append, List.length_cons] at hlen
            simp only [ih f2 b (by omega) (by omega)]
        · rw [if_neg hc, if_neg hc]
          rw [ih f2 rest (by omega) (by omega)]

/-- Step equation at a non-backtick head. -/
theorem debacktick_cons_ne (c : Char) (rest : List Char) (hc : c ≠ '`') :
    debacktick (c :: rest) = c :: debacktick rest := by
  show debacktickAux (rest.length + 1) (c :: rest) = _
  simp only [debacktickAux]
  rw [if_neg hc]
  rfl

/-- Step equation at an opening backtick with a closing one. -/
theorem debacktick_cons_bt_closed (rest : List Char) (b0 : Char) (b : List Char)
    (hdw : rest.dropWhile (· ≠ '`') = b0 :: b) :
    debacktick ('`' :: rest) = rest.takeWhile (· ≠ '`') ++ debacktick b := by
  show debacktickAux (rest.length + 1) ('`' :: rest) = _
  simp only [debacktickAux, if_true]
  rw [hdw]
  have hlen := congrArg List.length (List.takeWhile_append_dropWhile (· ≠ '`') rest)
  rw [hdw] at hlen
  simp only [List.length_append, List.length_cons] at hlen
  show rest.takeWhile (· ≠ '`') ++ debacktickAux rest.length b = _
  rw [debacktickAux_congr rest.length b.length b (by omega) (by omega)]
  rfl

/-- Step equation at an unpaired backtick. -/
theorem debacktick_cons_bt_open (rest : List Char)
    (hdw : rest.dropWhile (· ≠ '`') = []) :
    debacktick ('`' :: rest) = '`' :: rest := by
  show debacktickAux (rest.length + 1) ('`' :: rest) = _
  simp only [debacktickAux, if_true]
  rw [hdw]

/-- Counting a non-backtick character is invariant under the removal. -/
theorem debacktick_count (c : Char) (hc : c ≠ '`') :
    ∀ (n : Nat) (l : List Char), l.length ≤ n →
      (debacktick l).count c = l.count c := by
  intro n
  induction n with
  | zero =>
    intro l h
    have : l = [] := List.length_eq_zero.mp (Nat.le_zero.mp h)
    subst this
    rfl
  | succ n ih =>
    intro l h
    cases l with
    | nil => rfl
    | cons a rest =>
      simp only [List.length_cons] at h
      by_cases ha : a = '`'
      · subst ha
        cases hdw : rest.dropWhile (· ≠ '`') with
        | nil => rw [debacktick_cons_bt_open rest hdw]
        | cons b0 b =>
          rw [debacktick_cons_bt_closed rest b0 b hdw]
          have hsplit := List.takeWhile_append_dropWhile (· ≠ '`') rest
          rw [hdw] at hsplit
          have hb0 : b0 = '`' := by
            have := dropWhile_head_false (· ≠ '`') rest b b0 hdw
            simpa using this
          subst hb0
          have hlen := congrArg List.length (List.takeWhile_append_dropWhile (· ≠ '`') rest)
          rw [hdw] at hlen
          simp only [List.length_append, List.length_cons] at hlen
          have hbc : ('`' == c) = false := by
            simp only [beq_eq_false_iff_ne, ne_eq]
            intro he
            exact hc he.symm
          have hrhs : List.count c ('`' :: rest) =
              List.count c (rest.takeWhile (· ≠ '`')) + List.count c b := by
            rw [List.count_cons, hbc]
            conv_lhs => rw [← hsplit]
            rw [List.count_append, List.count_cons, hbc]
            simp
          rw [List.count_append, ih b (by omega), hrhs]
      · rw [debacktick_cons_ne a rest ha]
        rw [List.count_cons, List.count_cons, ih rest (by omega)]

/-- The removal leaves at most one backtick. -/
theorem debacktick_btcount : ∀ (n : Nat) (l : List Char), l.length ≤ n →
    (debacktick l).count '`' ≤ 1 := by
  intro n
  induction n with
  | zero =>
    intro l h
    have : l = [] := List.length_eq_zero.mp (Nat.le_zero.mp h)
    subst this
    decide
  | succ n ih =>
    intro l h
    cases l with
    | nil => decide
    | cons a rest =>
      simp only [List.length_cons] at h
      by_cases ha : a = '`'
      · subst ha
        cases hdw : rest.dropWhile (· ≠ '`') with
        | nil =>
          rw [debacktick_cons_bt_open rest hdw]
          have hrest : ∀ x ∈ rest, x ≠ '`' := by
            intro x hx
            have := List.dropWhile_eq_nil_iff.mp hdw x hx
            simpa using this
          rw [List.count_cons]
          have h0 : rest.count '`' = 0 :=
            List.count_eq_zero_of_not_mem (fun hmem => hrest '`' hmem rfl)
          simp [h0]
        | cons b0 b =>
          rw [debacktick_cons_bt_closed rest b0 b hdw]
          rw [List.count_append]
          have h0 : (rest.takeWhile (· ≠ '`')).count '`' = 0 := by
            apply List.count_eq_zero_of_not_mem
            intro hmem
            have := List.mem_takeWhile_imp hmem
            simp at this
          have hlen := congrArg List.length (List.takeWhile_append_dropWhile (· ≠ '`') rest)
          rw [hdw] at hlen
          simp only [List.length_append, List.length_cons] at hlen
          rw [h0]
          simpa using ih b (by omega)
      · rw [debacktick_cons_ne a rest ha]
        rw [List.count_cons]
        have hne : (a == '`') = false := by
          simp only [beq_eq_false_iff_ne, ne_eq]
          exact ha
        rw [hne]
        simpa using ih rest (by omega)

/-- The removal steps through a backtick-free prefix unchanged. -/
theorem debacktick_prefix (p r : List Char) (hp : ∀ a ∈ p, a ≠ '`') :
    debacktick (p ++ r) = p ++ debacktick r := by
  induction p with
  | nil => rfl
  | cons a p' ih =>
    rw [List.cons_append, debacktick_cons_ne a _ (hp a (by simp))]
    rw [ih (fun b hb => hp b (by simp [hb]))]
    rfl

/-- The removal commutes with appending one non-backtick character. -/
theorem debacktick_snoc (c : Char) (hc : c ≠ '`') :
    ∀ (n : Nat) (l : List Char), l.length ≤ n →
      debacktick (l ++ [c]) = debacktick l ++ [c] := by
  intro n
  induction n with
  | zero =>
    intro l h
    have : l = [] := List.length_eq_zero.mp (Nat.le_zero.mp h)
    subst this
    rw [List.nil_append, debacktick_cons_ne c [] hc]
    rfl
  | succ n ih =>
    intro l h
    cases l with
    | nil =>
      rw [List.nil_append, debacktick_cons_ne c [] hc]
      rfl
    | cons a rest =>
      simp only [List.length_cons] at h
      by_cases ha : a = '`'
      · subst ha
        rw [List.cons_append]
        cases hdw : rest.dropWhile (· ≠ '`') with
        | nil =>
          have hdw2 : (rest ++ [c]).dropWhile (· ≠ '`') = [] := by
            rw [List.dropWhile_append, if_pos (by rw [hdw]; rfl)]
            simp [List.dropWhile, hc]
          rw [debacktick_cons_bt_open _ hdw2, debacktick_cons_bt_open rest hdw]
          rfl
        | cons b0 b =>
          have hdw2 : (rest ++ [c]).dropWhile (· ≠ '`') = b0 :: (b ++ [c]) := by
            rw [List.dropWhile_append, if_neg (by rw [hdw]; simp), hdw]
            rfl
          have htw : (rest ++ [c]).takeWhile (· ≠ '`') = rest.takeWhile (· ≠ '`') := by
            rw [List.takeWhile_append]
            have hlen := congrArg List.length (List.takeWhile_append_dropWhile (· ≠ '`') rest)
            rw [hdw] at hlen
            simp only [List.length_append, List.length_cons] at hlen
            rw [if_neg (by omega)]
          rw [debacktick_cons_bt_closed _ b0 (b ++ [c]) hdw2, htw,
            debacktick_cons_bt_closed rest b0 b hdw]
          have hlen := congrArg List.length (List.takeWhile_append_dropWhile (· ≠ '`') rest)
          rw [hdw] at hlen
          simp only [List.length_append, List.length_cons] at hlen
          rw [ih b (by omega)]
          rw [List.append_assoc]
      · rw [List.cons_append, debacktick_cons_ne a _ ha, debacktick_cons_ne a rest ha]
        rw [ih rest (by omega)]
        rfl

/-- With at most one backtick the removal is the identity. -/
theorem debacktick_eq_self : ∀ (n : Nat) (l : List Char), l.length ≤ n →
    l.count '`' ≤ 1 → debacktick l = l := by
  intro n
  induction n with
  | zero =>
    intro l h _
    have : l = [] := List.length_eq_zero.mp (Nat.le_zero.mp h)
    subst this
    rfl
  | succ n ih =>
    intro l h hcount
    cases l with
    | nil => rfl
    | cons a rest =>
      simp only [List.length_cons] at h
      by_cases ha : a = '`'
      · subst ha
        have hr0 : rest.count '`' = 0 := by
          rw [List.count_cons] at hcount
          simp at hcount
          omega
        have hdw : rest.dropWhile (· ≠ '`') = [] := by
          rw [List.dropWhile_eq_nil_iff]
          intro x hx
          simp only [ne_eq, decide_eq_true_eq]
          intro he
          subst he
          exact absurd (List.count_eq_zero.mp hr0) (fun hn => hn hx)
        exact debacktick_cons_bt_open rest hdw
      · rw [debacktick_cons_ne a rest ha]
        rw [List.count_cons] at hcount
        rw [ih rest (by omega) (by omega)]

/-! ### Keyword-insertion lemmas -/

/-- The fuelled insertion is independent of the fuel once it covers the
input. -/
theorem insertKwFuel_congr : ∀ (f1 f2 : Nat) (prev : Option Char) (l : List Char),
    l.length ≤ f1 → l.length ≤ f2 →
      insertKwFuel f1 prev l = insertKwFuel f2 prev l := by
  intro f1
  induction f1 with
  | zero =>
    intro f2 prev l h1 _
    have : l = [] := List.length_eq_zero.mp (Nat.le_zero.mp h1)
    subst this
    cases f2 <;> rfl
  | succ f1 ih =>
    intro f2 prev l h1 h2
    cases l with
    | nil => cases f2 <;> rfl
    | cons c rest =>
      cases f2 with
      | zero => simp at h2
      | succ f2 =>
        simp only [List.length_cons] at h1 h2
        simp only [insertKwFuel]
        cases hm : kwMatchAt prev (c :: rest) with
        | none => simp only [ih f2 (some c) rest (by omega) (by omega)]
        | some mr =>
          have hlt := mr.2.2
          simp only [List.length_cons] at hlt
          simp only [ih f2 (some (mr.1.1.getLastD c)) mr.1.2 (by omega) (by omega)]

/-- Insertion step equation at a keyword match. -/
theorem insertKw_match (prev : Option Char) (c : Char) (rest : List Char) (mr)
    (h : kwMatchAt prev (c :: rest) = some mr) :
    insertKwAux prev (c :: rest) =
      '\n' :: mr.1.1 ++ insertKwAux (some (mr.1.1.getLastD c)) mr.1.2 := by
  show insertKwFuel (rest.length + 1) prev (c :: rest) = _
  simp only [insertKwFuel, h]
  have hlt := mr.2.2
  simp only [List.length_cons] at hlt
  simp only [insertKwFuel_congr rest.length mr.1.2.length (some (mr.1.1.getLastD c)) mr.1.2
    (by omega) (by omega)]
  rfl

/-- Insertion step equation without a match. -/
theorem insertKw_nomatch (prev : Option Char) (c : Char) (rest : List Char)
    (h : kwMatchAt prev (c :: rest) = none) :
    insertKwAux prev (c :: rest) = c :: insertKwAux (some c) rest := by
  show insertKwFuel (rest.length + 1) prev (c :: rest) = _
  simp only [insertKwFuel, h]
  rfl

/-- The fuelled side condition is independent of the fuel once it covers the
input. -/
theorem okInsFuel_congr : ∀ (f1 f2 : Nat) (prev : Option Char) (l : List Char),
    l.length ≤ f1 → l.length ≤ f2 → okInsFuel f1 prev l = okInsFuel f2 prev l := by
  intro f1
  induction f1 with
  | zero =>
    intro f2 prev l h1 _
    have : l = [] := List.length_eq_zero.mp (Nat.le_zero.mp h1)
    subst this
    cases f2 <;> rfl
  | succ f1 ih =>
    intro f2 prev l h1 h2
    cases l with
    | nil => cases f2 <;> rfl
    | cons c rest =>
      cases f2 with
      | zero => simp at h2
      | succ f2 =>
        simp only [List.length_cons] at h1 h2
        simp only [okInsFuel]
        cases hm : kwMatchAt prev (c :: rest) with
        | none => simp only [ih f2 (some c) rest (by omega) (by omega)]
        | some mr =>
          have hlt := mr.2.2
          simp only [List.length_cons] at hlt
          simp only [ih f2 (some (mr.1.1.getLastD c)) mr.1.2 (by omega) (by omega)]

/-- Side-condition step equation at a keyword match. -/
theorem okIns_match (prev : Option Char) (c : Char) (rest : List Char) (mr)
    (h : kwMatchAt prev (c :: rest) = some mr) :
    okIns prev (c :: rest) =
      ((decide (prev = none) || decide (prev = some ' ')) &&
        okIns (some (mr.1.1.getLastD c)) mr.1.2) := by
  show okInsFuel (rest.length + 1) prev (c :: rest) = _
  simp only [okInsFuel, h]
  have hlt := mr.2.2
  simp only [List.length_cons] at hlt
  simp only [okInsFuel_congr rest.length mr.1.2.length (some (mr.1.1.getLastD c)) mr.1.2
    (by omega) (by omega)]
  rfl

/-- Side-condition step equation without a match. -/
theorem okIns_nomatch (prev : Option Char) (c : Char) (rest : List Char)
    (h : kwMatchAt prev (c :: rest) = none) :
    okIns prev (c :: rest) = okIns (some c) rest := by
  show okInsFuel (rest.length + 1) prev (c :: rest) = _
  simp only [okInsFuel, h]
  rfl

/-- Insertion step equation at a keyword match, with the match's components
explicit. -/
theorem insertKw_match' (prev : Option Char) (a : Char) (rest K r : List Char)
    (h2 : (K, r).1 ++ (K, r).2 = a :: rest ∧ (K, r).2.length < (a :: rest).length)
    (hm : kwMatchAt prev (a :: rest) = some ⟨(K, r), h2⟩) :
    insertKwAux prev (a :: rest) =
      '\n' :: K ++ insertKwAux (some (K.getLastD a)) r :=
  insertKw_match prev a rest ⟨(K, r), h2⟩ hm

/-- Side-condition step equation at a keyword match, with the match's
components explicit. -/
theorem okIns_match' (prev : Option Char) (a : Char) (rest K r : List Char)
    (h2 : (K, r).1 ++ (K, r).2 = a :: rest ∧ (K, r).2.length < (a :: rest).length)
    (hm : kwMatchAt prev (a :: rest) = some ⟨(K, r), h2⟩) :
    okIns prev (a :: rest) =
      ((decide (prev = none) || decide (prev = some ' ')) &&
        okIns (some (K.getLastD a)) r) :=
  okIns_match prev a rest ⟨(K, r), h2⟩ hm

/-- After a word character no keyword matches (the leading boundary fails). -/
theorem kwMatchAt_prevWord (prev : Option Char) (l : List Char)
    (h : prevIsWord prev = true) : kwMatchAt prev l = none := by
  unfold kwMatchAt
  rw [if_pos h]

/-- A keyword match names one of the listed keywords, up to case. -/
theorem kwMatchAt_exists (prev : Option Char) (l : List Char) (mr)
    (h : kwMatchAt prev l = some mr) :
    ∃ kw ∈ sqlKeywords, mr.1.1.map Char.toLower = kw.data.map Char.toLower := by
  unfold kwMatchAt at h
  by_cases hp : prevIsWord prev
  · rw [if_pos hp] at h
    exact absurd h (by simp)
  · rw [if_neg hp] at h
    obtain ⟨kw, hkw, hf⟩ := List.exists_of_findSome?_eq_some h
    refine ⟨kw, hkw, ?_⟩
    cases hct : ciTake kw.data l with
    | none => rw [hct] at hf; exact absurd hf (by simp)
    | some x =>
      obtain ⟨⟨m, r⟩, hm⟩ := x
      simp only [hct] at hf
      by_cases hb : boundaryAfter r
      · rw [if_pos hb] at hf
        by_cases hlt : r.length < l.length
        · rw [dif_pos hlt] at hf
          cases hf
          exact ciTake_lower kw.data l ⟨(m, r), hm⟩ hct
        · rw [dif_neg hlt] at hf
          exact absurd hf (by simp)
      · rw [if_neg hb] at hf
        exact absurd hf (by simp)

/-- A word character is not whitespace. -/
theorem word_not_ws (c : Char) (h : isWordChar c = true) : isPyWs c = false := by
  rw [Bool.eq_false_iff]
  intro habs
  simp only [isPyWs, Bool.or_eq_true, decide_eq_true_eq] at habs
  rcases habs with ((((he | he) | he) | he) | he) | he <;>
    (subst he; exact absurd h (by decide))

/-- `getLastD` commutes with `map`. -/
theorem map_getLastD (f : Char → Char) : ∀ (l : List Char) (d : Char),
    (l.map f).getLastD (f d) = f (l.getLastD d) := by
  intro l
  induction l with
  | nil => intro d; rfl
  | cons a l' ih =>
    intro d
    cases l' with
    | nil => rfl
    | cons b l'' => exact ih a

/-- `getLastD` of a nonempty list ignores its default. -/
theorem getLastD_irrel : ∀ (l : List Char) (d d' : Char), l ≠ [] →
    l.getLastD d = l.getLastD d' := by
  intro l
  induction l with
  | nil => intro d d' h; exact absurd rfl h
  | cons a l' ih =>
    intro d d' _
    cases l' with
    | nil => rfl
    | cons b l'' => exact ih d d' (by simp)

/-- The matched keyword text is nonempty, ends in a word character, and
begins with a non-whitespace character. -/
theorem kwMatchAt_shape (prev : Option Char) (l : List Char) (mr)
    (h : kwMatchAt prev l = some mr) (d : Char) :
    mr.1.1 ≠ [] ∧ isWordChar (mr.1.1.getLastD d) = true ∧
      (∀ c0 ∈ mr.1.1.head?, isPyWs c0 = false) := by
  obtain ⟨kw, hkw, hlow⟩ := kwMatchAt_exists prev l mr h
  have hkwlow : ∀ x ∈ sqlKeywords,
      (x.data.map Char.toLower) ≠ [] ∧
      isWordChar ((x.data.map Char.toLower).getLastD ' ') = true ∧
      ∀ c0 ∈ (x.data.map Char.toLower).head?, isPyWs c0 = false := by decide
  obtain ⟨hne, hlast, hhead⟩ := hkwlow kw hkw
  have hmne : mr.1.1 ≠ [] := by
    intro habs
    rw [habs] at hlow
    exact hne hlow.symm
  refine ⟨hmne, ?_, ?_⟩
  · apply word_of_toLower_word
    have h1 : (mr.1.1.map Char.toLower).getLastD (Char.toLower d) =
        Char.toLower (mr.1.1.getLastD d) := map_getLastD Char.toLower mr.1.1 d
    have h2 : (mr.1.1.map Char.toLower).getLastD (Char.toLower d) =
        (mr.1.1.map Char.toLower).getLastD ' ' := by
      apply getLastD_irrel
      intro habs
      exact hmne (by simpa using habs)
    rw [← h1, h2, hlow]
    exact hlast
  · intro c0 hc0
    apply not_ws_of_toLower_not_ws
    cases hm : mr.1.1 with
    | nil => exact absurd hm hmne
    | cons m0 m' =>
      rw [hm] at hc0
      simp only [List.head?_cons, Option.mem_def, Option.some.injEq] at hc0
      subst hc0
      rw [hm] at hlow
      cases hkd : kw.data with
      | nil => rw [hkd] at hlow; simp at hlow
      | cons k0 k' =>
        rw [hkd] at hlow
        simp only [List.map_cons, List.cons.injEq] at hlow
        have := hhead (Char.toLower k0)
        rw [hkd] at this
        simp only [List.map_cons, List.head?_cons, Option.mem_def] at this
        rw [hlow.1]
        exact this (by simp)

/-! ### Structure of the step-3 extraction -/

/-- A successful first-occurrence split leaves the pattern matchable at the
cut. -/
theorem splitAtCi_spec (pat : String) : ∀ (l p rest : List Char),
    splitAtCi pat l = some (p, rest) →
      p ++ rest = l ∧ (ciTake pat.data rest).isSome = true := by
  intro l
  induction l with
  | nil =>
    intro p rest h
    simp only [splitAtCi] at h
    by_cases he : pat.data.isEmpty
    · rw [if_pos he] at h
      cases h
      refine ⟨rfl, ?_⟩
      rw [List.isEmpty_iff] at he
      rw [he]
      rfl
    · rw [if_neg he] at h
      exact absurd h (by simp)
  | cons c rest0 ih =>
    intro p rest h
    simp only [splitAtCi] at h
    by_cases hs : (ciTake pat.data (c :: rest0)).isSome = true
    · rw [if_pos hs] at h
      cases h
      exact ⟨rfl, hs⟩
    · rw [if_neg hs] at h
      rw [Option.map_eq_some'] at h
      obtain ⟨q, hq, hqe⟩ := h
      obtain ⟨h1, h2⟩ := ih q.1 q.2 hq
      cases hqe
      exact ⟨by rw [List.cons_append, h1], h2⟩

/-- A successful semicolon split: the prefix is semicolon-free and the list
recomposes. -/
theorem splitAtSemi_spec : ∀ (l a q : List Char),
    splitAtSemi l = some (a, q) → a ++ ';' :: q = l ∧ a.count ';' = 0 := by
  intro l
  induction l with
  | nil => intro a q h; exact absurd h (by simp [splitAtSemi])
  | cons c rest ih =>
    intro a q h
    simp only [splitAtSemi] at h
    by_cases hc : c = ';'
    · rw [if_pos hc] at h
      cases h
      subst hc
      exact ⟨rfl, rfl⟩
    · rw [if_neg hc] at h
      rw [Option.map_eq_some'] at h
      obtain ⟨p, hp, hpe⟩ := h
      obtain ⟨h1, h2⟩ := ih p.1 p.2 hp
      cases hpe
      constructor
      · rw [List.cons_append, h1]
      · rw [List.count_cons, h2]
        simp [hc]

/-- The semicolon split finds the unique semicolon of a well-shaped list. -/
theorem splitAtSemi_of_shape : ∀ (a q : List Char), a.count ';' = 0 →
    splitAtSemi (a ++ ';' :: q) = some (a, q) := by
  intro a
  induction a with
  | nil => intro q _; simp [splitAtSemi]
  | cons c a' ih =>
    intro q hc
    rw [List.count_cons] at hc
    have hcne : ¬ c = ';' := by
      intro habs
      subst habs
      simp at hc
    have ha' : a'.count ';' = 0 := by
      by_contra hne
      have : 0 < a'.count ';' := Nat.pos_of_ne_zero hne
      omega
    show splitAtSemi (c :: (a' ++ ';' :: q)) = _
    simp only [splitAtSemi]
    rw [if_neg hcne, ih q ha']
    rfl

/-- A list lowering to the pattern is matched by the case-insensitive
matcher. -/
theorem ciTake_isSome_of_lower : ∀ (pat m r : List Char),
    m.map Char.toLower = pat.map Char.toLower →
      (ciTake pat (m ++ r)).isSome = true := by
  intro pat
  induction pat with
  | nil =>
    intro m r h
    simp only [List.map_nil, List.map_eq_nil] at h
    subst h
    rfl
  | cons p ps ih =>
    intro m r h
    cases m with
    | nil => simp at h
    | cons c m' =>
      simp only [List.map_cons, List.cons.injEq] at h
      have hcc : ciCh c p = true := by
        simp [ciCh, h.1]
      show (ciTake (p :: ps) (c :: (m' ++ r))).isSome = true
      simp only [ciTake]
      rw [if_pos hcc]
      have := ih m' r h.2
      cases hct : ciTake ps (m' ++ r) with
      | none => rw [hct] at this; exact absurd this (by simp)
      | some x =>
        obtain ⟨⟨m2, r2⟩, hm2⟩ := x
        simp only [hct]
        rfl

/-- A list with a last element decomposes around it. -/
theorem getLast?_some_decomp : ∀ (l : List Char) (c : Char),
    l.getLast? = some c → ∃ t, l = t ++ [c] := by
  intro l
  induction l with
  | nil => intro c h; exact absurd h (by simp)
  | cons a l' ih =>
    intro c h
    cases l' with
    | nil =>
      simp only [List.getLast?_singleton, Option.some.injEq] at h
      exact ⟨[], by simp [h]⟩
    | cons b l'' =>
      rw [List.getLast?_cons_cons] at h
      obtain ⟨t, ht⟩ := ih c h
      exact ⟨a :: t, by rw [List.cons_append, ← ht]⟩

/-- Right-stripping a list ending in non-whitespace is the identity. -/
theorem rstrip_snoc (c : Char) (hc : isPyWs c = false) (l : List Char) :
    ((l ++ [c]).reverse.dropWhile isPyWs).reverse = l ++ [c] := by
  rw [List.reverse_append]
  simp only [List.reverse_singleton, List.singleton_append]
  rw [List.dropWhile_cons_of_neg (by simp [hc])]
  simp

/-- The step-3 extraction always returns a case-insensitive SELECT head, a
semicolon-free middle, and a final semicolon. -/
theorem extractSelect_spec (l u : List Char) (h : extractSelect l = some u) :
    ∃ s6 z, u = s6 ++ z ++ [';'] ∧ s6.map Char.toLower = "select".data ∧
      s6.count ';' = 0 ∧ z.count ';' = 0 := by
  unfold extractSelect at h
  cases hsc : splitAtCi "SELECT" l with
  | none => rw [hsc] at h; exact absurd h (by simp)
  | some pr =>
    simp only [hsc] at h
    obtain ⟨hre, hsome⟩ := splitAtCi_spec "SELECT" l pr.1 pr.2 hsc
    cases hct : ciTake ("SELECT").data pr.2 with
    | none => rw [hct] at hsome; exact absurd hsome (by simp)
    | some x =>
      obtain ⟨⟨m6, r6⟩, hm⟩ := x
      have hlow : m6.map Char.toLower = ("select").data := by
        have := ciTake_lower ("SELECT").data pr.2 ⟨(m6, r6), hm⟩ hct
        simpa using this
      have hm6len : m6.length = 6 := by
        have := hm.1
        simpa using this
      have htake : pr.2.take 6 = m6 := by
        rw [← hm.2]
        exact List.take_left' hm6len
      have hdrop : pr.2.drop 6 = r6 := by
        rw [← hm.2]
        exact List.drop_left' hm6len
      cases hss : splitAtSemi (pr.2.drop 6) with
      | none => simp only [hss] at h; exact absurd h (by simp)
      | some aq =>
        simp only [hss, Option.some.injEq] at h
        obtain ⟨haq, hact⟩ := splitAtSemi_spec _ aq.1 aq.2 hss
        refine ⟨m6, aq.1, ?_, hlow, ?_, hact⟩
        · rw [← h, htake]
        · rw [List.count_eq_zero]
          intro habs
          have : Char.toLower ';' ∈ m6.map Char.toLower :=
            List.mem_map_of_mem Char.toLower habs
          rw [hlow] at this
          exact absurd this (by decide)

/-- Characters of a case-insensitive SELECT head are word characters and in
particular not whitespace, backticks, newlines or semicolons. -/
theorem select_chars (s6 : List Char) (h : s6.map Char.toLower = ("select").data) :
    ∀ c ∈ s6, isWordChar c = true ∧ isPyWs c = false ∧ c ≠ '`' ∧ c ≠ ';' := by
  intro c hc
  have hmem : c.toLower ∈ ("select").data := by
    rw [← h]
    exact List.mem_map_of_mem Char.toLower hc
  have hall : ∀ d ∈ ("select").data, isWordChar d = true := by decide
  have hw : isWordChar c = true := word_of_toLower_word c (hall _ hmem)
  refine ⟨hw, word_not_ws c hw, ?_, ?_⟩
  · intro habs
    subst habs
    exact absurd hmem (by decide)
  · intro habs
    subst habs
    exact absurd hmem (by decide)

/-! ### Newline discipline of the keyword-insertion output -/

/-- A non-newline head only passes the check down. -/
theorem nlOk_cons_ne (c : Char) (l : List Char) (hc : c ≠ '\n') :
    nlOk (c :: l) = nlOk l := by
  simp only [nlOk, hc, decide_not]
  simp [hc]

/-- The check at a newline head demands a non-whitespace successor. -/
theorem nlOk_cons_nl (d : Char) (l : List Char) :
    nlOk ('\n' :: d :: l) = (! isPyWs d && nlOk (d :: l)) := by
  simp [nlOk]

/-- The check is closed under taking the tail. -/
theorem nlOk_tail (c : Char) (l : List Char) (h : nlOk (c :: l) = true) :
    nlOk l = true := by
  simp only [nlOk, Bool.and_eq_true] at h
  exact h.2

/-- A newline-free prefix passes the check down. -/
theorem nlOk_append_no_nl : ∀ (p z : List Char), (∀ c ∈ p, c ≠ '\n') →
    nlOk (p ++ z) = nlOk z := by
  intro p
  induction p with
  | nil => intro z _; rfl
  | cons c p' ih =>
    intro z hp
    rw [List.cons_append, nlOk_cons_ne c _ (hp c (by simp))]
    exact ih z (fun b hb => hp b (by simp [hb]))

/-- Counting a character other than the newline is invariant under the
insertion pass. -/
theorem insertKw_count (c : Char) (hc : c ≠ '\n') :
    ∀ (n : Nat) (prev : Option Char) (l : List Char), l.length ≤ n →
      (insertKwAux prev l).count c = l.count c := by
  intro n
  induction n with
  | zero =>
    intro prev l h
    have : l = [] := List.length_eq_zero.mp (Nat.le_zero.mp h)
    subst this
    rfl
  | succ n ih =>
    intro prev l h
    cases l with
    | nil => rfl
    | cons a rest =>
      simp only [List.length_cons] at h
      cases hm : kwMatchAt prev (a :: rest) with
      | none =>
        rw [insertKw_nomatch prev a rest hm]
        rw [List.count_cons, List.count_cons, ih (some a) rest (by omega)]
      | some mr =>
        obtain ⟨⟨K, r⟩, hpr⟩ := mr
        rw [insertKw_match' prev a rest K r hpr hm]
        have hlt := hpr.2
        simp only [List.length_cons] at hlt
        have hsplit : K ++ r = a :: rest := hpr.1
        have hcnt : (a :: rest).count c = K.count c + r.count c := by
          conv_lhs => rw [← hsplit]
          rw [List.count_append]
        rw [hcnt]
        rw [show ('\n' :: K ++ insertKwAux (some (K.getLastD a)) r) =
          ('\n' :: K) ++ insertKwAux (some (K.getLastD a)) r from rfl]
        rw [List.count_append, List.count_cons, ih (some (K.getLastD a)) r (by omega)]
        have hne : ('\n' == c) = false := by
          simp only [beq_eq_false_iff_ne, ne_eq]
          intro habs
          exact hc habs.symm
        simp [hne]

/-- The insertion pass keeps the input's final character. -/
theorem insertKw_getLast : ∀ (n : Nat) (prev : Option Char) (l : List Char),
    l.length ≤ n → l ≠ [] →
      insertKwAux prev l ≠ [] ∧ (insertKwAux prev l).getLast? = l.getLast? := by
  intro n
  induction n with
  | zero =>
    intro prev l h hne
    exact absurd (List.length_eq_zero.mp (Nat.le_zero.mp h)) hne
  | succ n ih =>
    intro prev l h _
    cases l with
    | cons a rest =>
      simp only [List.length_cons] at h
      cases hm : kwMatchAt prev (a :: rest) with
      | none =>
        rw [insertKw_nomatch prev a rest hm]
        cases rest with
        | nil => exact ⟨by simp, rfl⟩
        | cons b rest' =>
          obtain ⟨hne', hlast⟩ := ih (some a) (b :: rest') (by omega) (by simp)
          constructor
          · simp
          · rw [show a :: insertKwAux (some a) (b :: rest') =
              [a] ++ insertKwAux (some a) (b :: rest') from rfl]
            rw [List.getLast?_append_of_ne_nil _ hne', hlast,
              List.getLast?_cons_cons]
      | some mr =>
        obtain ⟨⟨K, r⟩, hpr⟩ := mr
        rw [insertKw_match' prev a rest K r hpr hm]
        have hlt := hpr.2
        simp only [List.length_cons] at hlt
        have hsplit : K ++ r = a :: rest := hpr.1
        obtain ⟨hKne, _, _⟩ := kwMatchAt_shape prev (a :: rest) ⟨(K, r), hpr⟩ hm ' '
        have hlastKr : (a :: rest).getLast? = (K ++ r).getLast? := by
          rw [hsplit]
        cases r with
        | nil =>
          constructor
          · simp
          · have hins : insertKwAux (some (K.getLastD a)) ([] : List Char) = [] := rfl
            rw [hins, List.append_nil, hlastKr, List.append_nil]
            rw [show ('\n' :: K : List Char) = ['\n'] ++ K from rfl]
            rw [List.getLast?_append_of_ne_nil _ hKne]
        | cons b rest' =>
          obtain ⟨hne', hlast⟩ :=
            ih (some (K.getLastD a)) (b :: rest') (by omega) (by simp)
          constructor
          · simp
          · rw [show '\n' :: K ++ insertKwAux (some (K.getLastD a)) (b :: rest') =
              ('\n' :: K) ++ insertKwAux (some (K.getLastD a)) (b :: rest') from rfl]
            rw [List.getLast?_append_of_ne_nil _ hne', hlast, hlastKr,
              List.getLast?_append_of_ne_nil _ (by simp)]
    | nil => exact absurd rfl (by assumption)

/-- A newline followed by a keyword block and a checked tail passes the
check. -/
theorem nlOk_nl_block (K A : List Char) (hne : K ≠ [])
    (hhead : ∀ c0 ∈ K.head?, isPyWs c0 = false)
    (hKnl : ∀ c ∈ K, c ≠ '\n') (hA : nlOk A = true) :
    nlOk ('\n' :: K ++ A) = true := by
  cases K with
  | nil => exact absurd rfl hne
  | cons k0 K' =>
    have hk0 : isPyWs k0 = false := hhead k0 (by simp)
    simp only [List.cons_append]
    rw [nlOk_cons_nl, hk0]
    rw [show (k0 :: (K' ++ A)) = ((k0 :: K') ++ A) from rfl]
    rw [nlOk_append_no_nl _ _ hKnl]
    simp [hA]

/-- The insertion pass emits no whitespace right after a newline. -/
theorem nlOk_insertKw : ∀ (n : Nat) (prev : Option Char) (l : List Char),
    l.length ≤ n → (∀ c ∈ l, c ≠ '\n') → nlOk (insertKwAux prev l) = true := by
  intro n
  induction n with
  | zero =>
    intro prev l h _
    have : l = [] := List.length_eq_zero.mp (Nat.le_zero.mp h)
    subst this
    rfl
  | succ n ih =>
    intro prev l h hnl
    cases l with
    | nil => rfl
    | cons a rest =>
      simp only [List.length_cons] at h
      cases hm : kwMatchAt prev (a :: rest) with
      | none =>
        rw [insertKw_nomatch prev a rest hm]
        rw [nlOk_cons_ne a _ (hnl a (by simp))]
        exact ih (some a) rest (by omega) (fun c hc => hnl c (by simp [hc]))
      | some mr =>
        obtain ⟨⟨K, r⟩, hpr⟩ := mr
        rw [insertKw_match' prev a rest K r hpr hm]
        have hlt := hpr.2
        simp only [List.length_cons] at hlt
        have hsplit : K ++ r = a :: rest := hpr.1
        obtain ⟨hKne, _, hhead⟩ := kwMatchAt_shape prev (a :: rest) ⟨(K, r), hpr⟩ hm ' '
        have hKnl : ∀ c ∈ K, c ≠ '\n' := by
          intro c hc
          exact hnl c (by rw [← hsplit]; exact List.mem_append_left _ hc)
        have hrest : nlOk (insertKwAux (some (K.getLastD a)) r) = true :=
          ih (some (K.getLastD a)) r (by omega)
            (fun c hc => hnl c (by rw [← hsplit]; exact List.mem_append_right _ hc))
        exact nlOk_nl_block K _ hKne hhead hKnl hrest

/-- The blank-line collapse is the identity on lists whose newlines are all
followed by non-whitespace. -/
theorem collapseBlank_eq_self : ∀ (n : Nat) (l : List Char), l.length ≤ n →
    nlOk l = true → collapseBlankFuel n l = l := by
  intro n
  induction n with
  | zero => intro l _ _; rfl
  | succ n ih =>
    intro l h hok
    cases l with
    | nil => rfl
    | cons c rest =>
      simp only [List.length_cons] at h
      simp only [collapseBlankFuel]
      by_cases hc : c = '\n'
      · rw [if_pos hc]
        subst hc
        cases rest with
        | nil =>
          simp only [nlOk, Bool.and_eq_true] at hok
          simp at hok
        | cons d rest' =>
          rw [nlOk_cons_nl] at hok
          simp only [Bool.and_eq_true, Bool.not_eq_true'] at hok
          have htw : List.takeWhile isPyWs (d :: rest') = [] :=
            List.takeWhile_cons_of_neg (by simp [hok.1])
          have hsp : splitAtLastNl (List.takeWhile isPyWs (d :: rest')) = none := by
            rw [htw]
            rfl
          simp only [hsp]
          rw [ih (d :: rest') (by omega) hok.2]
      · rw [if_neg hc]
        rw [ih rest (by omega) (nlOk_tail c rest hok)]

/-! ### Pass-two identities of steps 1, 2 and 6 -/

/-- The fence pass is the identity on lists with at most one backtick. -/
theorem stripFencesAux_eq_self : ∀ (f : Nat) (l : List Char),
    l.count '`' ≤ 1 → stripFencesAux f l = l := by
  intro f
  induction f with
  | zero => intro l _; rfl
  | succ f ih =>
    intro l hc
    simp only [stripFencesAux]
    split
    · rename_i rest
      simp only [List.count_cons] at hc
      simp at hc
    · rename_i c ls hno
      have hcl : ls.count '`' ≤ 1 := by
        rw [List.count_cons] at hc
        omega
      rw [ih ls hcl]
    · rfl

/-- The fence pass with full fuel is the identity on lists with at most one
backtick. -/
theorem stripFences_eq_self (l : List Char) (hc : l.count '`' ≤ 1) :
    stripFences l = l :=
  stripFencesAux_eq_self l.length l hc

/-- The label-prefix pass is the identity when the text starts with a
case-insensitive "se". -/
theorem stripPrefixLabel_skip (a b : Char) (t : List Char)
    (ha : a.toLower = 's') (hb : b.toLower = 'e') :
    stripPrefixLabel (a :: b :: t) = a :: b :: t := by
  have hS : ciCh a 'S' = true := by unfold ciCh; rw [ha]; decide
  have hQ : ciCh b 'Q' = false := by unfold ciCh; rw [hb]; decide
  have hM : ciCh a 'M' = false := by unfold ciCh; rw [ha]; decide
  have hP : ciCh a 'P' = false := by unfold ciCh; rw [ha]; decide
  have cSQ : ∀ (L : List Char), ciTake ('S' :: 'Q' :: L) (a :: b :: t) = none := by
    intro L
    simp [ciTake, hS, hQ]
  have cM : ∀ (L : List Char), ciTake ('M' :: L) (a :: b :: t) = none := by
    intro L
    simp [ciTake, hM]
  have cP : ∀ (L : List Char), ciTake ('P' :: L) (a :: b :: t) = none := by
    intro L
    simp [ciTake, hP]
  have h1 : tryLabelSqlQuery (a :: b :: t) = none := by
    unfold tryLabelSqlQuery
    cases hct : ciTake ("SQL").data (a :: b :: t) with
    | none => simp only [hct]
    | some x =>
      have hct' : ciTake ('S' :: 'Q' :: ['L']) (a :: b :: t) = some x := hct
      rw [cSQ ['L']] at hct'
      exact absurd hct' (by simp)
  have h2 : tryLabel "SQLQuery" (a :: b :: t) = none := by
    unfold tryLabel
    cases hct : ciTake ("SQLQuery").data (a :: b :: t) with
    | none => simp only [hct]
    | some x =>
      have hct' : ciTake ('S' :: 'Q' :: ['L', 'Q', 'u', 'e', 'r', 'y'])
          (a :: b :: t) = some x := hct
      rw [cSQ ['L', 'Q', 'u', 'e', 'r', 'y']] at hct'
      exact absurd hct' (by simp)
  have h3 : tryLabel "MySQL" (a :: b :: t) = none := by
    unfold tryLabel
    cases hct : ciTake ("MySQL").data (a :: b :: t) with
    | none => simp only [hct]
    | some x =>
      have hct' : ciTake ('M' :: ['y', 'S', 'Q', 'L']) (a :: b :: t) = some x := hct
      rw [cM ['y', 'S', 'Q', 'L']] at hct'
      exact absurd hct' (by simp)
  have h4 : tryLabel "PostgreSQL" (a :: b :: t) = none := by
    unfold tryLabel
    cases hct : ciTake ("PostgreSQL").data (a :: b :: t) with
    | none => simp only [hct]
    | some x =>
      have hct' : ciTake ('P' :: ['o', 's', 't', 'g', 'r', 'e', 'S', 'Q', 'L'])
          (a :: b :: t) = some x := hct
      rw [cP ['o', 's', 't', 'g', 'r', 'e', 'S', 'Q', 'L']] at hct'
      exact absurd hct' (by simp)
  have h5 : tryLabel "SQL" (a :: b :: t) = none := by
    unfold tryLabel
    cases hct : ciTake ("SQL").data (a :: b :: t) with
    | none => simp only [hct]
    | some x =>
      have hct' : ciTake ('S' :: 'Q' :: ['L']) (a :: b :: t) = some x := hct
      rw [cSQ ['L']] at hct'
      exact absurd hct' (by simp)
  unfold stripPrefixLabel
  rw [h1]
  simp only [List.findSome?_cons, h2, h3, h4, h5, List.findSome?_nil]

/-- Over the keyword list, only SELECT starts with a case-insensitive s. -/
theorem kw_head_select : ∀ kw ∈ sqlKeywords,
    kw.data.head?.map Char.toLower = some 's' → kw = "SELECT" := by decide

/-- A keyword match at a case-insensitive SELECT head takes exactly that
head. -/
theorem kwMatch_select (a : Char) (s5 v' : List Char)
    (hlow : (a :: s5).map Char.toLower = ("select").data) (mr)
    (hm : kwMatchAt none ((a :: s5) ++ v') = some mr) :
    mr.1.1 = a :: s5 ∧ mr.1.2 = v' := by
  obtain ⟨kw, hkw, hklow⟩ := kwMatchAt_exists none ((a :: s5) ++ v') mr hm
  obtain ⟨hKne, -, -⟩ := kwMatchAt_shape none ((a :: s5) ++ v') mr hm ' '
  have hsplit : mr.1.1 ++ mr.1.2 = (a :: s5) ++ v' := mr.2.1
  have hs6len : (a :: s5).length = 6 := by
    have := congrArg List.length hlow
    simpa using this
  cases hK : mr.1.1 with
  | nil => exact absurd hK hKne
  | cons k K' =>
    rw [hK] at hsplit hklow
    have hka : k = a := by
      have hh := congrArg List.head? hsplit
      simpa using hh
    have has : a.toLower = 's' := by
      have hh := congrArg List.head? hlow
      simpa using hh
    have hkw_head : kw.data.head?.map Char.toLower = some 's' := by
      have hh := congrArg List.head? hklow
      rw [List.head?_map, List.head?_map] at hh
      rw [← hh]
      simp [hka, has]
    have hsel : kw = "SELECT" := kw_head_select kw hkw hkw_head
    subst hsel
    have hKlow : (k :: K').map Char.toLower = ("select").data := by
      rw [hklow]
      decide
    have hKlen : (k :: K').length = (a :: s5).length := by
      have h6 := congrArg List.length hKlow
      simp only [List.length_map] at h6
      rw [h6, hs6len]
      decide
    exact List.append_inj hsplit hKlen

/-- The insertion pass copies a run of word characters after a word
character. -/
theorem insertKw_word_run : ∀ (p : List Char) (c0 : Char) (z : List Char),
    (∀ c ∈ c0 :: p, isWordChar c = true) →
    insertKwAux (some c0) (p ++ z) = p ++ insertKwAux (some (p.getLastD c0)) z := by
  intro p
  induction p with
  | nil => intro c0 z _; rfl
  | cons d p' ih =>
    intro c0 z hw
    have hm : kwMatchAt (some c0) (d :: (p' ++ z)) = none :=
      kwMatchAt_prevWord _ _ (hw c0 (by simp))
    rw [List.cons_append, insertKw_nomatch (some c0) d (p' ++ z) hm]
    rw [ih d z (fun c hc => hw c (List.mem_cons_of_mem _ hc))]
    rw [List.getLastD_cons c0 d p']
    rfl

/-- The insertion pass on a statement with a case-insensitive SELECT head:
either a newline is inserted before the head, or the head is copied; in both
cases the rest continues after the head. -/
theorem insertKw_select_head (s6 v' : List Char)
    (hlow : s6.map Char.toLower = ("select").data) :
    insertKwAux none (s6 ++ v') =
      '\n' :: s6 ++ insertKwAux (some (s6.getLastD ' ')) v' ∨
    insertKwAux none (s6 ++ v') =
      s6 ++ insertKwAux (some (s6.getLastD ' ')) v' := by
  cases s6 with
  | nil => simp at hlow
  | cons a s5 =>
    cases hm : kwMatchAt none ((a :: s5) ++ v') with
    | some mr =>
      left
      obtain ⟨hK, hr⟩ := kwMatch_select a s5 v' hlow mr hm
      obtain ⟨⟨K, r⟩, hpr⟩ := mr
      have hK' : K = a :: s5 := hK
      have hr' : r = v' := hr
      conv_lhs => rw [List.cons_append]
      rw [insertKw_match' none a (s5 ++ v') K r hpr hm]
      rw [hK', hr']
      rw [getLastD_irrel (a :: s5) a ' ' (by simp)]
    | none =>
      right
      rw [List.cons_append, insertKw_nomatch none a (s5 ++ v') hm]
      have hwords : ∀ c ∈ a :: s5, isWordChar c = true :=
        fun c hc => (select_chars _ hlow c hc).1
      rw [insertKw_word_run s5 a v' hwords]
      rw [List.getLastD_cons ' ' a s5]
      rfl

/-! ### Collapsing the insertion pass's newlines -/

/-- Dropping one leading newline from a newline-headed list. -/
theorem dropNl1_cons_nl (t : List Char) : dropNl1 ('\n' :: t) = t := by
  simp [dropNl1]

/-- Dropping one leading newline leaves other heads alone. -/
theorem dropNl1_cons_ne (c : Char) (t : List Char) (hc : c ≠ '\n') :
    dropNl1 (c :: t) = c :: t := by
  simp [dropNl1, hc]

/-- A nonempty list decomposes around its `getLastD`. -/
theorem getLastD_decomp : ∀ (l : List Char) (d : Char), l ≠ [] →
    ∃ t, l = t ++ [l.getLastD d] := by
  intro l
  induction l with
  | nil => intro d h; exact absurd rfl h
  | cons a l' ih =>
    intro d _
    by_cases hl' : l' = []
    · subst hl'
      exact ⟨[], rfl⟩
    · obtain ⟨t, ht⟩ := ih a hl'
      refine ⟨a :: t, ?_⟩
      rw [List.getLastD_cons d a l']
      rw [List.cons_append, ← ht]

/-- Undoing one whitespace collapse after the insertion pass: stripping the
pass's first inserted newline and collapsing whitespace recovers the
collapse of the input, provided every match site follows a space or starts
the statement. -/
theorem collapseWs_insertKw : ∀ (n : Nat) (prev : Option Char) (l : List Char),
    l.length ≤ n → okIns prev l = true → wsNorm l = true →
    collapseWs (dropNl1 (insertKwAux prev l)) = collapseWs l := by
  intro n
  induction n with
  | zero =>
    intro prev l h _ _
    have : l = [] := List.length_eq_zero.mp (Nat.le_zero.mp h)
    subst this
    rfl
  | succ n ih =>
    intro prev l h hok hwn
    cases l with
    | nil => rfl
    | cons c rest =>
      simp only [List.length_cons] at h
      cases hm : kwMatchAt prev (c :: rest) with
      | some mr =>
        obtain ⟨⟨K, r⟩, hpr⟩ := mr
        have hok' : okIns (some (K.getLastD c)) r = true := by
          rw [okIns_match' prev c rest K r hpr hm] at hok
          simp only [Bool.and_eq_true] at hok
          exact hok.2
        have hsplit : K ++ r = c :: rest := hpr.1
        have hwr : wsNorm r = true := by
          apply wsNorm_suffix K r
          rw [hsplit]
          exact hwn
        obtain ⟨hKne, hKword, -⟩ :=
          kwMatchAt_shape prev (c :: rest) ⟨(K, r), hpr⟩ hm c
        have hKword' : isWordChar (K.getLastD c) = true := hKword
        have hKne' : K ≠ [] := hKne
        rw [insertKw_match' prev c rest K r hpr hm]
        simp only [List.cons_append]
        rw [dropNl1_cons_nl]
        conv_rhs => rw [← hsplit]
        cases r with
        | nil => rfl
        | cons e r' =>
          have hrlen : (e :: r').length ≤ n := by
            have := hpr.2
            simp only [List.length_cons] at this
            simp only [List.length_cons]
            omega
          have hIH := ih (some (K.getLastD c)) (e :: r') hrlen hok' hwr
          have henl : e ≠ '\n' := by
            apply wsNorm_no_nl (c :: rest) hwn e
            rw [← hsplit]
            exact List.mem_append_right _ (by simp)
          have hm2 : kwMatchAt (some (K.getLastD c)) (e :: r') = none :=
            kwMatchAt_prevWord _ _ hKword'
          rw [insertKw_nomatch _ _ _ hm2] at hIH
          rw [dropNl1_cons_ne e _ henl] at hIH
          rw [insertKw_nomatch _ _ _ hm2]
          obtain ⟨Kf, hKf⟩ := getLastD_decomp K c hKne'
          have hws0 : isPyWs (K.getLastD c) = false := word_not_ws _ hKword'
          conv_lhs => rw [hKf, List.append_assoc, List.singleton_append,
            collapseWs_append_boundary (K.getLastD c) hws0 Kf.length Kf _ le_rfl]
          conv_rhs => rw [hKf, List.append_assoc, List.singleton_append,
            collapseWs_append_boundary (K.getLastD c) hws0 Kf.length Kf _ le_rfl]
          rw [hIH]
      | none =>
        have hok' : okIns (some c) rest = true := by
          rw [okIns_nomatch prev c rest hm] at hok
          exact hok
        have hwn' : wsNorm rest = true := wsNorm_tail c rest hwn
        have hcnl : c ≠ '\n' := wsNorm_no_nl _ hwn c (by simp)
        rw [insertKw_nomatch prev c rest hm]
        rw [dropNl1_cons_ne c _ hcnl]
        have hIH := ih (some c) rest (by omega) hok' hwn'
        cases rest with
        | nil => rfl
        | cons d r2 =>
          have hdnl : d ≠ '\n' := wsNorm_no_nl _ hwn d (by simp)
          cases hm2 : kwMatchAt (some c) (d :: r2) with
          | some mr2 =>
            obtain ⟨⟨K2, r2b⟩, hpr2⟩ := mr2
            have hc : c = ' ' := by
              rw [okIns_match' (some c) d r2 K2 r2b hpr2 hm2] at hok'
              simp only [Bool.and_eq_true, Bool.or_eq_true,
                decide_eq_true_eq] at hok'
              rcases hok'.1 with h1 | h1
              · exact absurd h1 (by simp)
              · exact Option.some_injective _ h1
            subst hc
            obtain ⟨hK2ne, -, hK2head⟩ :=
              kwMatchAt_shape (some ' ') (d :: r2) ⟨(K2, r2b), hpr2⟩ hm2 ' '
            have hK2ne' : K2 ≠ [] := hK2ne
            have hhead' : ∀ c0 ∈ K2.head?, isPyWs c0 = false := hK2head
            have hins2 := insertKw_match' (some ' ') d r2 K2 r2b hpr2 hm2
            rw [hins2]
            rw [hins2] at hIH
            simp only [List.cons_append] at hIH ⊢
            rw [dropNl1_cons_nl] at hIH
            cases hK2 : K2 with
            | nil => exact absurd hK2 hK2ne'
            | cons k2 K2' =>
              rw [hK2] at hIH hhead'
              have hk2 : isPyWs k2 = false := hhead' k2 (by simp)
              simp only [List.cons_append] at hIH ⊢
              rw [collapseWs_cons_ws ' ' _ (by decide)]
              rw [List.dropWhile_cons_of_pos (show isPyWs '\n' = true from by decide)]
              rw [List.dropWhile_cons_of_neg (by simp [hk2])]
              have hd : isPyWs d = false := wsNorm_ws_next ' ' d r2 hwn (by decide)
              rw [collapseWs_cons_ws ' ' (d :: r2) (by decide)]
              rw [List.dropWhile_cons_of_neg (by simp [hd])]
              rw [hIH]
          | none =>
            rw [insertKw_nomatch _ _ _ hm2] at hIH
            rw [dropNl1_cons_ne d _ hdnl] at hIH
            rw [insertKw_nomatch _ _ _ hm2]
            by_cases hcw : isPyWs c
            · have hc : c = ' ' := wsNorm_ws_space _ hwn c (by simp) hcw
              subst hc
              have hd : isPyWs d = false := wsNorm_ws_next ' ' d r2 hwn (by decide)
              rw [collapseWs_cons_ws ' ' _ (by decide)]
              rw [List.dropWhile_cons_of_neg (by simp [hd])]
              rw [collapseWs_cons_ws ' ' (d :: r2) (by decide)]
              rw [List.dropWhile_cons_of_neg (by simp [hd])]
              rw [hIH]
            · rw [collapseWs_cons_not c _ (by simp [hcw])]
              rw [collapseWs_cons_not c (d :: r2) (by simp [hcw])]
              rw [hIH]

/-! ### The sanitized output's shape -/

/-- Steps 4-7 of the sanitizer on an extracted statement: the stripped
insertion output keeps the SELECT head, collapses back to the
whitespace-collapsed input, passes the newline check, and keeps exactly one
semicolon (final) and at most one backtick. -/
theorem sanitize_shape (u : List Char) (a : Char) (s5 z0 : List Char)
    (hu : u = (a :: s5) ++ (z0 ++ [';']))
    (hlow : (a :: s5).map Char.toLower = ("select").data)
    (hs60 : (a :: s5).count ';' = 0) (hz0 : z0.count ';' = 0)
    (hok : okIns none (collapseWs (debacktick u)) = true) :
    ∃ A : List Char,
      pyStripList (insertKwAux none (collapseWs (debacktick u))) =
        (a :: s5) ++ A ∧
      collapseWs ((a :: s5) ++ A) = collapseWs (debacktick u) ∧
      nlOk ((a :: s5) ++ A) = true ∧
      ((a :: s5) ++ A).count ';' = 1 ∧
      ((a :: s5) ++ A).count '`' ≤ 1 ∧
      ∃ Af, A = Af ++ [';'] ∧ Af.count ';' = 0 := by
  have hchars := select_chars (a :: s5) hlow
  have haw : isPyWs a = false := (hchars a (by simp)).2.1
  have hanl : a ≠ '\n' := ne_nl_of_not_ws a haw
  have hw1 : debacktick u = (a :: s5) ++ debacktick (z0 ++ [';']) := by
    rw [hu]
    exact debacktick_prefix (a :: s5) _ (fun c hc => (hchars c hc).2.2.1)
  have hu2 : u = ((a :: s5) ++ z0) ++ [';'] := by
    rw [hu, List.append_assoc]
  have hw2 : debacktick u = debacktick ((a :: s5) ++ z0) ++ [';'] := by
    rw [hu2]
    exact debacktick_snoc ';' (by decide) ((a :: s5) ++ z0).length _ le_rfl
  have hv1 : collapseWs (debacktick u) =
      (a :: s5) ++ collapseWs (debacktick (z0 ++ [';'])) := by
    rw [hw1]
    exact collapseWs_append_nonws (a :: s5) _ (fun c hc => (hchars c hc).2.1)
  have hv2 : collapseWs (debacktick u) =
      collapseWs (debacktick ((a :: s5) ++ z0)) ++ [';'] := by
    rw [hw2]
    exact collapseWs_snoc ';' (by decide) (debacktick ((a :: s5) ++ z0)).length _ le_rfl
  have hvnorm : wsNorm (collapseWs (debacktick u)) = true :=
    wsNorm_collapseWs (debacktick u).length (debacktick u) le_rfl
  have hvnn : ∀ c ∈ collapseWs (debacktick u), c ≠ '\n' :=
    wsNorm_no_nl _ hvnorm
  have hucount : u.count ';' = 1 := by
    have h0 := hs60
    rw [List.count_cons] at h0
    rw [hu]
    rw [show ((a :: s5) ++ (z0 ++ [';'])) = a :: (s5 ++ (z0 ++ [';'])) from rfl]
    rw [List.count_cons, List.count_append, List.count_append]
    have hone : List.count ';' ([';'] : List Char) = 1 := by decide
    rw [hone]
    omega
  have hvcount : (collapseWs (debacktick u)).count ';' = 1 := by
    rw [collapseWs_count ';' (by decide) (debacktick u).length _ le_rfl,
      debacktick_count ';' (by decide) u.length u le_rfl, hucount]
  have hvbt : (collapseWs (debacktick u)).count '`' ≤ 1 := by
    rw [collapseWs_count '`' (by decide) (debacktick u).length _ le_rfl]
    exact debacktick_btcount u.length u le_rfl
  have hvne : collapseWs (debacktick u) ≠ [] := by
    rw [hv2]
    simp
  obtain ⟨hmne, hmlast⟩ :=
    insertKw_getLast (collapseWs (debacktick u)).length none _ le_rfl hvne
  have hvlast : (collapseWs (debacktick u)).getLast? = some ';' := by
    rw [hv2]
    exact List.getLast?_concat _
  rw [hvlast] at hmlast
  obtain ⟨mf, hmf⟩ := getLast?_some_decomp _ ';' hmlast
  have hmcount : (insertKwAux none (collapseWs (debacktick u))).count ';' = 1 := by
    rw [insertKw_count ';' (by decide) (collapseWs (debacktick u)).length none _ le_rfl]
    exact hvcount
  have hmbt : (insertKwAux none (collapseWs (debacktick u))).count '`' ≤ 1 := by
    rw [insertKw_count '`' (by decide) (collapseWs (debacktick u)).length none _ le_rfl]
    exact hvbt
  have hmnl : nlOk (insertKwAux none (collapseWs (debacktick u))) = true :=
    nlOk_insertKw (collapseWs (debacktick u)).length none _ le_rfl hvnn
  have hps : pyStripList (insertKwAux none (collapseWs (debacktick u))) =
      (insertKwAux none (collapseWs (debacktick u))).dropWhile isPyWs := by
    have hdwsnoc : (insertKwAux none (collapseWs (debacktick u))).dropWhile isPyWs =
        (mf.dropWhile isPyWs) ++ [';'] := by
      rw [hmf]
      exact dropWhile_append_not _ _ (by decide) mf
    unfold pyStripList
    rw [hdwsnoc]
    exact rstrip_snoc ';' (by decide) (mf.dropWhile isPyWs)
  have hmm := insertKw_select_head (a :: s5)
    (collapseWs (debacktick (z0 ++ [';']))) hlow
  rw [← hv1] at hmm
  refine ⟨insertKwAux (some ((a :: s5).getLastD ' '))
    (collapseWs (debacktick (z0 ++ [';']))), ?_⟩
  have hmid : (insertKwAux none (collapseWs (debacktick u))).dropWhile isPyWs =
      a :: (s5 ++ insertKwAux (some ((a :: s5).getLastD ' '))
        (collapseWs (debacktick (z0 ++ [';'])))) ∧
      dropNl1 (insertKwAux none (collapseWs (debacktick u))) =
      a :: (s5 ++ insertKwAux (some ((a :: s5).getLastD ' '))
        (collapseWs (debacktick (z0 ++ [';'])))) ∧
      nlOk (a :: (s5 ++ insertKwAux (some ((a :: s5).getLastD ' '))
        (collapseWs (debacktick (z0 ++ [';']))))) = true := by
    rcases hmm with hm1 | hm2
    · have hm1' : insertKwAux none (collapseWs (debacktick u)) =
          '\n' :: a :: (s5 ++ insertKwAux (some ((a :: s5).getLastD ' '))
            (collapseWs (debacktick (z0 ++ [';'])))) := hm1
      refine ⟨?_, ?_, ?_⟩
      · rw [hm1', List.dropWhile_cons_of_pos (by decide),
          List.dropWhile_cons_of_neg (by simp [haw])]
      · rw [hm1', dropNl1_cons_nl]
      · rw [hm1'] at hmnl
        exact nlOk_tail _ _ hmnl
    · have hm2' : insertKwAux none (collapseWs (debacktick u)) =
          a :: (s5 ++ insertKwAux (some ((a :: s5).getLastD ' '))
            (collapseWs (debacktick (z0 ++ [';'])))) := hm2
      refine ⟨?_, ?_, ?_⟩
      · rw [hm2', List.dropWhile_cons_of_neg (by simp [haw])]
      · rw [hm2', dropNl1_cons_ne a _ hanl]
      · rw [hm2'] at hmnl
        exact hmnl
  obtain ⟨hdw, hdn, hnl⟩ := hmid
  have hycount : (a :: (s5 ++ insertKwAux (some ((a :: s5).getLastD ' '))
      (collapseWs (debacktick (z0 ++ [';']))))).count ';' = 1 := by
    rw [← hdw]
    rw [count_dropWhile_of_ne isPyWs ';'
      (fun t ht => by intro habs; subst habs; exact absurd ht (by decide))]
    exact hmcount
  have hybt : (a :: (s5 ++ insertKwAux (some ((a :: s5).getLastD ' '))
      (collapseWs (debacktick (z0 ++ [';']))))).count '`' ≤ 1 := by
    rw [← hdw]
    rw [count_dropWhile_of_ne isPyWs '`'
      (fun t ht => by intro habs; subst habs; exact absurd ht (by decide))]
    exact hmbt
  have hAne : insertKwAux (some ((a :: s5).getLastD ' '))
      (collapseWs (debacktick (z0 ++ [';']))) ≠ [] := by
    intro habs
    rw [habs] at hycount
    simp only [List.append_nil] at hycount
    have : (a :: s5).count ';' = 1 := hycount
    rw [hs60] at this
    exact absurd this (by decide)
  have hylast : (a :: (s5 ++ insertKwAux (some ((a :: s5).getLastD ' '))
      (collapseWs (debacktick (z0 ++ [';']))))).getLast? = some ';' := by
    rw [← hdw, ← hps, hmf]
    have hd2 : pyStripList (mf ++ [';']) = (mf.dropWhile isPyWs) ++ [';'] := by
      unfold pyStripList
      rw [dropWhile_append_not _ _ (by decide) mf]
      exact rstrip_snoc ';' (by decide) (mf.dropWhile isPyWs)
    rw [hd2]
    exact List.getLast?_concat _
  have hAlast : (insertKwAux (some ((a :: s5).getLastD ' '))
      (collapseWs (debacktick (z0 ++ [';'])))).getLast? = some ';' := by
    have h1 : (a :: (s5 ++ insertKwAux (some ((a :: s5).getLastD ' '))
        (collapseWs (debacktick (z0 ++ [';']))))).getLast? =
        (insertKwAux (some ((a :: s5).getLastD ' '))
          (collapseWs (debacktick (z0 ++ [';'])))).getLast? := by
      rw [show (a :: (s5 ++ insertKwAux (some ((a :: s5).getLastD ' '))
        (collapseWs (debacktick (z0 ++ [';']))))) =
        ((a :: s5) ++ insertKwAux (some ((a :: s5).getLastD ' '))
          (collapseWs (debacktick (z0 ++ [';'])))) from rfl]
      exact List.getLast?_append_of_ne_nil _ hAne
    rw [← h1, hylast]
  obtain ⟨Af, hAf⟩ := getLast?_some_decomp _ ';' hAlast
  have hAfcount : Af.count ';' = 0 := by
    have h1 := hycount
    rw [show (a :: (s5 ++ insertKwAux (some ((a :: s5).getLastD ' '))
      (collapseWs (debacktick (z0 ++ [';']))))) =
      ((a :: s5) ++ insertKwAux (some ((a :: s5).getLastD ' '))
        (collapseWs (debacktick (z0 ++ [';'])))) from rfl, List.count_append,
      hs60, hAf, List.count_append] at h1
    simp at h1
    exact h1
  refine ⟨?_, ?_, hnl, hycount, hybt, Af, hAf, hAfcount⟩
  · rw [hps, hdw]
    rfl
  · rw [show ((a :: s5) ++ insertKwAux (some ((a :: s5).getLastD ' '))
      (collapseWs (debacktick (z0 ++ [';'])))) =
      (a :: (s5 ++ insertKwAux (some ((a :: s5).getLastD ' '))
        (collapseWs (debacktick (z0 ++ [';']))))) from rfl]
    rw [← hdn]
    rw [collapseWs_insertKw (collapseWs (debacktick u)).length none _ le_rfl hok hvnorm]
    exact collapseWs_eq_self_of_wsNorm _ hvnorm

/-- Step 3 re-extracts the whole statement from a sanitized output: SELECT
head, semicolon-free middle, final semicolon. -/
theorem extractSelect_again (a b : Char) (s4 Af : List Char)
    (hlow : (a :: b :: s4).map Char.toLower = ("select").data)
    (hAf : Af.count ';' = 0) :
    extractSelect ((a :: b :: s4) ++ (Af ++ [';'])) =
      some ((a :: b :: s4) ++ (Af ++ [';'])) := by
  have hlen : (a :: b :: s4).length = 6 := by
    have := congrArg List.length hlow
    simpa using this
  have hlowS : (a :: b :: s4).map Char.toLower =
      ("SELECT").data.map Char.toLower := by
    rw [hlow]
    decide
  have hsome : (ciTake ("SELECT").data
      ((a :: b :: s4) ++ (Af ++ [';']))).isSome = true :=
    ciTake_isSome_of_lower ("SELECT").data (a :: b :: s4) (Af ++ [';']) hlowS
  have hsome' : (ciTake ("SELECT").data
      (a :: (b :: s4 ++ (Af ++ [';'])))).isSome = true := hsome
  have hsc : splitAtCi "SELECT" ((a :: b :: s4) ++ (Af ++ [';'])) =
      some ([], (a :: b :: s4) ++ (Af ++ [';'])) := by
    rw [show ((a :: b :: s4) ++ (Af ++ [';'])) =
      a :: (b :: s4 ++ (Af ++ [';'])) from rfl]
    simp only [splitAtCi]
    rw [if_pos hsome']
  unfold extractSelect
  simp only [hsc]
  have hdr : ((a :: b :: s4) ++ (Af ++ [';'])).drop 6 = Af ++ [';'] :=
    List.drop_left' hlen
  have hss : splitAtSemi (((a :: b :: s4) ++ (Af ++ [';'])).drop 6) =
      some (Af, []) := by
    rw [hdr]
    exact splitAtSemi_of_shape Af [] hAf
  simp only [hss]
  rw [List.take_left' hlen, List.append_assoc]

/-- C5 (amended): the sanitizer is idempotent on every input whose label- and
fence-stripped text contains an extractable SELECT statement `u` for which,
after backtick removal and whitespace collapsing, every keyword occurrence
found by the insertion pass sits at the start of the statement or right
after a space. -/
theorem clean_sql_idempotent_amended (x : String) (u : List Char)
    (hE : extractSelect (stripPrefixLabel (stripFences x.data)) = some u)
    (hok : okIns none (collapseWs (debacktick u)) = true) :
    clean_sql_query (clean_sql_query x) = clean_sql_query x := by
  obtain ⟨s6, z0, hu, hlow, hs60, hz0⟩ := extractSelect_spec _ u hE
  cases s6 with
  | nil => exact absurd hlow (by decide)
  | cons a s6' =>
    cases s6' with
    | nil =>
      have hl := congrArg List.length hlow
      simp at hl
    | cons b s4 =>
      obtain ⟨A, hy1, hy2, hy3, hy4, hy5, Af, hAf, hAfc⟩ :=
        sanitize_shape u a (b :: s4) z0 (hu.trans (List.append_assoc _ _ _))
          hlow hs60 hz0 hok
      have hx1 : clean_sql_query x = ⟨(a :: b :: s4) ++ A⟩ := by
        show String.mk (clean_sql_query_list x.data) = _
        rw [show clean_sql_query_list x.data =
          collapseBlank (pyStripList (insertKwAux none (collapseWs (debacktick
            ((extractSelect (stripPrefixLabel (stripFences x.data))).getD
              (stripPrefixLabel (stripFences x.data))))))) from rfl]
        rw [hE]
        rw [show (some u).getD (stripPrefixLabel (stripFences x.data)) = u from rfl]
        rw [hy1]
        have hcb : collapseBlank ((a :: b :: s4) ++ A) = (a :: b :: s4) ++ A :=
          collapseBlank_eq_self ((a :: b :: s4) ++ A).length _ le_rfl hy3
        rw [hcb]
      have hw_lab : stripPrefixLabel ((a :: b :: s4) ++ A) =
          (a :: b :: s4) ++ A := by
        have hlow' := hlow
        rw [show ("select").data = ['s', 'e', 'l', 'e', 'c', 't'] from rfl] at hlow'
        simp only [List.map_cons, List.cons.injEq] at hlow'
        exact stripPrefixLabel_skip a b _ hlow'.1 hlow'.2.1
      have hw_fence : stripFences ((a :: b :: s4) ++ A) = (a :: b :: s4) ++ A :=
        stripFences_eq_self _ hy5
      have hw_ext : extractSelect ((a :: b :: s4) ++ A) =
          some ((a :: b :: s4) ++ A) := by
        rw [hAf]
        exact extractSelect_again a b s4 Af hlow hAfc
      have hw_bt : debacktick ((a :: b :: s4) ++ A) = (a :: b :: s4) ++ A :=
        debacktick_eq_self ((a :: b :: s4) ++ A).length _ le_rfl hy5
      have hx2 : clean_sql_query ⟨(a :: b :: s4) ++ A⟩ =
          ⟨(a :: b :: s4) ++ A⟩ := by
        show String.mk (clean_sql_query_list ((a :: b :: s4) ++ A)) = _
        rw [show clean_sql_query_list ((a :: b :: s4) ++ A) =
          collapseBlank (pyStripList (insertKwAux none (collapseWs (debacktick
            ((extractSelect (stripPrefixLabel (stripFences ((a :: b :: s4) ++ A)))).getD
              (stripPrefixLabel (stripFences ((a :: b :: s4) ++ A)))))))) from rfl]
        rw [hw_fence, hw_lab, hw_ext]
        rw [show (some ((a :: b :: s4) ++ A)).getD ((a :: b :: s4) ++ A) =
          (a :: b :: s4) ++ A from rfl]
        rw [hw_bt, hy2]
        rw [hy1]
        have hcb : collapseBlank ((a :: b :: s4) ++ A) = (a :: b :: s4) ++ A :=
          collapseBlank_eq_self ((a :: b :: s4) ++ A).length _ le_rfl hy3
        rw [hcb]
      rw [hx1, hx2]

/-- C5 counterexample: on a single well-formed statement with a
parenthesised subquery the sanitizer is not idempotent — the statement is
extractable, but the inner SELECT follows a parenthesis, violating the
amended side condition. -/
theorem clean_sql_not_idempotent_subquery :
    clean_sql_query (clean_sql_query c5Input) ≠ clean_sql_query c5Input ∧
    extractSelect (stripPrefixLabel (stripFences c5Input.data)) =
      some c5Input.data ∧
    okIns none (collapseWs (debacktick c5Input.data)) = false := by
  decide

/-- C5 amended witness: the side condition holds for a plain statement whose
keywords all follow spaces, and the sanitizer is idempotent there. -/
theorem clean_sql_idempotent_amended_witness :
    clean_sql_query (clean_sql_query c5WitnessInput) =
      clean_sql_query c5WitnessInput :=
  clean_sql_idempotent_amended c5WitnessInput (c5WitnessInput.data)
    (by decide) (by decide)

end Zus
